import Mathlib

/-!
Verification of the on-disk filesystem engine (`tools/filesystem.py` and the
layers it uses: `block_device.py`, `block_allocator.py`, `inode.py`,
`directory.py`, `superblock.py`).

Modelling conventions (shallow embedding of the Python source):
* Byte strings (`bytes` / `bytearray`) are `List Nat`; every byte produced by
  the model is `< 256`, matching Python `bytearray` semantics.
* Python `str` values (paths, names) are modelled by their UTF-8 byte strings
  (`List Nat`).  The source only compares names for equality and UTF-8
  encoding is injective on valid strings, so this is faithful; `'/'` is byte 47
  and never occurs inside a multi-byte UTF-8 sequence.
* The block device is a total map `Nat → List Nat` from block number to block
  content.  `write_block` always writes a full 4096-byte block in the source.
* `struct.pack('<I', x)` is modelled as little-endian `x % 2^32`; Python would
  raise for `x ≥ 2^32`, a regime none of the verified claims reaches.
* `int(time.time())` is modelled by an explicit `now : Nat` argument.
* Operations in which the Python source can raise an exception
  (`write_file`, `create_file`, `create_directory` via an unchecked
  `allocate_block() is None` flowing into `write_block`/`read_block`) return
  `Option FS`; `none` models the escaped exception.
* Python `dict` (the inode table) is an insertion-ordered association list;
  assignment to an existing key replaces in place, assignment to a new key
  appends, `del` removes.
-/

namespace FsSpec

set_option maxRecDepth 1000000

/-- `BLOCK_SIZE` from `block_device.py`. -/
def BLOCK_SIZE : Nat := 4096

/-- `INODE_SIZE` from `inode.py`. -/
def INODE_SIZE : Nat := 128

/-- `DIRECT_BLOCKS` from `inode.py`. -/
def DIRECT_BLOCKS : Nat := 12

/-- `MAGIC_NUMBER` from `superblock.py`. -/
def MAGIC_NUMBER : Nat := 0xDEADBEEF

/-- Little-endian 32-bit read of the first four bytes, `struct.unpack('<I', …)`. -/
def le32 (l : List Nat) : Nat :=
  l.getD 0 0 + 256 * (l.getD 1 0 + 256 * (l.getD 2 0 + 256 * l.getD 3 0))

/-- Little-endian 64-bit read of the first eight bytes, `struct.unpack('<Q', …)`. -/
def le64 (l : List Nat) : Nat :=
  le32 l + 4294967296 * le32 (l.drop 4)

/-- Little-endian 32-bit encode, `struct.pack('<I', n)` (Python raises for
`n ≥ 2^32`; such values do not occur in the verified claims). -/
def pack32 (n : Nat) : List Nat :=
  [n % 256, n / 256 % 256, n / 65536 % 256, n / 16777216 % 256]

/-- Little-endian 64-bit encode, `struct.pack('<Q', n)`. -/
def pack64 (n : Nat) : List Nat :=
  pack32 (n % 4294967296) ++ pack32 (n / 4294967296)

/-- Overwrite `dst[off : off + src.length]` with `src`
(bytearray slice assignment / `struct.pack_into`). -/
def spliceAt (dst : List Nat) (off : Nat) (src : List Nat) : List Nat :=
  dst.take off ++ src ++ dst.drop (off + src.length)

/-- A zero-filled block, `bytearray(BLOCK_SIZE)` / `bytes(BLOCK_SIZE)`. -/
def zeros4096 : List Nat := List.replicate 4096 0

/-- `BlockDevice.write_block`: the device as a total map updated at `n`. -/
def writeBlock (dev : Nat → List Nat) (n : Nat) (data : List Nat) : Nat → List Nat :=
  fun b => if b = n then data else dev b

/-! ## Block allocator (`block_allocator.py`) -/

/-- `BlockAllocator.is_allocated`: bit `n % 8` of byte `n / 8`; out-of-range
byte indices read as not allocated. -/
def isAllocated (bm : List Nat) (n : Nat) : Bool :=
  (bm.getD (n / 8) 0).testBit (n % 8)

/-- `BlockAllocator.set_allocated` (no-op when the byte index is out of range,
which `List.set` also guarantees).  Clearing uses `byte & ~(1 << bit)`; bitmap
bytes are always `< 256`, for which this equals masking with `255 ^^^ 2^bit`. -/
def setAllocated (bm : List Nat) (n : Nat) (allocated : Bool) : List Nat :=
  if allocated then
    bm.set (n / 8) ((bm.getD (n / 8) 0) ||| (1 <<< (n % 8)))
  else
    bm.set (n / 8) ((bm.getD (n / 8) 0) &&& (255 ^^^ (1 <<< (n % 8))))

/-- `BlockAllocator.free_block`. -/
def freeBlock (bm : List Nat) (total n : Nat) : List Nat :=
  if n < total then setAllocated bm n false else bm

/-- `BlockAllocator.allocate_block`: the linear scan returns the lowest-index
free block, marks it, or yields `none`. -/
def allocateBlock (bm : List Nat) (total : Nat) : Option (Nat × List Nat) :=
  match (List.range total).find? (fun i => !isAllocated bm i) with
  | none => none
  | some i => some (i, setAllocated bm i true)

/-- `BlockAllocator.free_blocks`: count of unallocated bits over the block range. -/
def freeCount (bm : List Nat) (total : Nat) : Nat :=
  (List.range total).countP (fun i => !isAllocated bm i)

/-- `BlockAllocator.__init__`: zero bitmap of `ceil(total/8)` bytes with
blocks `0..min(10,total)-1` marked allocated. -/
def mkBitmap (total : Nat) : List Nat :=
  (List.range (min 10 total)).foldl (fun bm i => setAllocated bm i true)
    (List.replicate ((total + 7) / 8) 0)

/-! ## Directory entries (`directory.py`) -/

/-- `DirEntry`: an inode number and a (UTF-8) name. -/
structure DirEntry where
  inodeNum : Nat
  name : List Nat
  deriving DecidableEq

/-- `DirEntry.to_bytes`. -/
def DirEntry.toBytes (e : DirEntry) : List Nat :=
  pack32 e.inodeNum ++ pack32 e.name.length ++ e.name

/-- `DirEntry.from_bytes`: returns the entry and the bytes consumed. -/
def dirEntryFromBytes (data : List Nat) : DirEntry × Nat :=
  let n := le32 data
  let nameLen := le32 (data.drop 4)
  ({ inodeNum := n, name := (data.drop 8).take nameLen }, 8 + nameLen)

/-- The directory-block scan shared by `list_directory`, `_lookup_in_directory`,
`_add_dir_entry` and `_remove_dir_entry`: starting at `off` with `rem`
(the block suffix from `off`), collect entries while the leading byte is
nonzero and a header fits; return the entries and the final offset.
`rem` is threaded instead of re-slicing the block, which matches
`block_data[offset:]` because `rem = block.drop off` is an invariant. -/
def scanDirAux (rem : List Nat) (off : Nat) : Nat → List DirEntry × Nat
  | 0 => ([], off)
  | fuel + 1 =>
    if off < 4096 then
      if rem.getD 0 0 = 0 then ([], off)
      else if off + 8 ≤ 4096 then
        let e := (dirEntryFromBytes rem).1
        let sz := 8 + le32 (rem.drop 4)
        let (rest, fin) := scanDirAux (rem.drop sz) (off + sz) fuel
        (e :: rest, fin)
      else ([], off)
    else ([], off)

/-- Scan a whole directory block from offset 0.  The fuel 512 is exact: each
iteration advances `off` by at least 8, so after 512 iterations `off ≥ 4096`
and the `off < 4096` loop condition fails; the fuel-exhausted result therefore
coincides with the loop-exit result and the function is precisely the source's
`while` loop. -/
def scanDir (block : List Nat) : List DirEntry × Nat :=
  scanDirAux block 0 512

/-! ## Inodes (`inode.py`) -/

/-- `Inode`: file metadata.  `directBlocks` always has length 12. -/
structure Inode where
  fileType : Nat
  size : Nat
  blockCount : Nat
  directBlocks : List Nat
  indirectBlock : Nat
  doubleIndirectBlock : Nat
  created : Nat
  modified : Nat
  accessed : Nat
  deriving DecidableEq

/-- `Inode.__init__(file_type)` at time `now`. -/
def mkInode (fileType now : Nat) : Inode :=
  { fileType := fileType
    size := 0
    blockCount := 0
    directBlocks := List.replicate 12 0
    indirectBlock := 0
    doubleIndirectBlock := 0
    created := now
    modified := now
    accessed := now }

/-- `Inode.to_bytes`: 128 bytes at fixed offsets (`file_type` is always 1 or 2,
hence a valid byte). -/
def inodeToBytes (ino : Inode) : List Nat :=
  [ino.fileType % 256, 0, 0, 0] ++ pack32 ino.size ++ pack32 ino.blockCount ++
    ((List.range 12).flatMap (fun i => pack32 (ino.directBlocks.getD i 0))) ++
    pack32 ino.indirectBlock ++ pack32 ino.doubleIndirectBlock ++
    pack64 ino.created ++ pack64 ino.modified ++ pack64 ino.accessed ++
    List.replicate 36 0

/-- `Inode.from_bytes` (unknown file types decode as REGULAR). -/
def inodeFromBytes (data : List Nat) : Inode :=
  { fileType := if data.getD 0 0 = 1 then 1 else if data.getD 0 0 = 2 then 2 else 1
    size := le32 (data.drop 4)
    blockCount := le32 (data.drop 8)
    directBlocks := (List.range 12).map (fun i => le32 (data.drop (12 + i * 4)))
    indirectBlock := le32 (data.drop 60)
    doubleIndirectBlock := le32 (data.drop 64)
    created := le64 (data.drop 68)
    modified := le64 (data.drop 76)
    accessed := le64 (data.drop 84) }

/-! ## Superblock (`superblock.py`) -/

/-- `Superblock` fields. -/
structure Superblock where
  magic : Nat
  blockSize : Nat
  totalBlocks : Nat
  inodeCount : Nat
  freeBlocks : Nat
  rootInode : Nat
  deriving DecidableEq

/-- `Superblock.__init__(total_blocks, inode_count)`. -/
def mkSuperblock (totalBlocks inodeCount : Nat) : Superblock :=
  { magic := MAGIC_NUMBER
    blockSize := 4096
    totalBlocks := totalBlocks
    inodeCount := inodeCount
    freeBlocks := totalBlocks - 10
    rootInode := 1 }

/-- `Superblock.to_bytes`: 24 packed bytes, zero-padded to a full block. -/
def sbToBytes (sb : Superblock) : List Nat :=
  pack32 sb.magic ++ pack32 sb.blockSize ++ pack32 sb.totalBlocks ++
    pack32 sb.inodeCount ++ pack32 sb.freeBlocks ++ pack32 sb.rootInode ++
    List.replicate (4096 - 24) 0

/-- `Superblock.from_bytes`: the stored magic is unpacked but the constructor
re-sets `magic := MAGIC_NUMBER`; all other fields come from the bytes. -/
def sbFromBytes (data : List Nat) : Superblock :=
  let totalBlocks := le32 (data.drop 8)
  let inodeCount := le32 (data.drop 12)
  { mkSuperblock totalBlocks inodeCount with
    blockSize := le32 (data.drop 4)
    freeBlocks := le32 (data.drop 16)
    rootInode := le32 (data.drop 20) }

/-! ## The inode table as an insertion-ordered association list -/

/-- `inode_table.get(k)`. -/
def tableLookup (t : List (Nat × Inode)) (k : Nat) : Option Inode :=
  match t with
  | [] => none
  | p :: rest => if p.1 = k then some p.2 else tableLookup rest k

/-- `inode_table[k] = v`: replace in place if present, else append
(Python dict insertion order). -/
def tableSet (t : List (Nat × Inode)) (k : Nat) (v : Inode) : List (Nat × Inode) :=
  if (tableLookup t k).isSome then
    t.map (fun p => if p.1 = k then (k, v) else p)
  else
    t ++ [(k, v)]

/-- `del inode_table[k]`. -/
def tableErase (t : List (Nat × Inode)) (k : Nat) : List (Nat × Inode) :=
  t.filter (fun p => p.1 ≠ k)

/-- The key list of the table. -/
def tableKeys (t : List (Nat × Inode)) : List Nat :=
  t.map Prod.fst

/-! ## Filesystem state (`filesystem.py`) -/

/-- The in-memory state of a mounted `FileSystem`: the backing device image,
the allocator (`bitmap`, `totalBlocks`), the superblock, the inode table and
the next inode number. -/
structure FS where
  device : Nat → List Nat
  bitmap : List Nat
  totalBlocks : Nat
  sb : Superblock
  inodeTable : List (Nat × Inode)
  nextInode : Nat

/-- One record of `FileSystem._write_inode_table`: flush the buffer (always
to block 2) when the next record would not fit, then pack
`inode_num ‖ inode` at the current offset. -/
def inodeTableStep (acc : List Nat × Nat × (Nat → List Nat)) (p : Nat × Inode) :
    List Nat × Nat × (Nat → List Nat) :=
  let (block, off, dev) := acc
  let (block, off, dev) :=
    if off + 4 + INODE_SIZE > BLOCK_SIZE then
      (zeros4096, 0, writeBlock dev 2 block)
    else (block, off, dev)
  (spliceAt block off (pack32 p.1 ++ inodeToBytes p.2), off + 4 + INODE_SIZE, dev)

/-- `FileSystem._write_inode_table`: pack the records into a block buffer,
flushing chunk by chunk, and finally flush a nonempty buffer. -/
def writeInodeTableDev (dev : Nat → List Nat) (t : List (Nat × Inode)) :
    Nat → List Nat :=
  let st := t.foldl inodeTableStep (zeros4096, 0, dev)
  if st.2.1 > 0 then writeBlock st.2.2 2 st.1 else st.2.2

/-- The record-parsing loop of `FileSystem._read_inode_table`; `rem` is the
suffix of block 2 at the current offset (threaded instead of re-slicing).
The count argument is the number of 132-byte records still fitting below
4096 bytes; `while offset + 132 ≤ 4096` runs exactly `⌊4096/132⌋ = 31` times
from offset 0. -/
def readInodeTableAux (rem : List Nat) : Nat → List (Nat × Inode)
  | 0 => []
  | count + 1 =>
    let n := le32 rem
    if n = 0 then []
    else (n, inodeFromBytes ((rem.drop 4).take INODE_SIZE)) ::
      readInodeTableAux (rem.drop (4 + INODE_SIZE)) count

/-- `FileSystem._read_inode_table`: parse block 2. -/
def readInodeTableDev (dev : Nat → List Nat) : List (Nat × Inode) :=
  readInodeTableAux (dev 2) 31

/-- `FileSystem._sync`: refresh `superblock.free_blocks`, rewrite block 0
(superblock), block 1 (bitmap zero-padded to a block) and block 2 (inode
table). -/
def sync (fs : FS) : FS :=
  let sb := { fs.sb with freeBlocks := freeCount fs.bitmap fs.totalBlocks }
  let dev := writeBlock fs.device 0 (sbToBytes sb)
  let dev := writeBlock dev 1
    (fs.bitmap.take 4096 ++ List.replicate (4096 - min fs.bitmap.length 4096) 0)
  { fs with sb := sb, device := writeInodeTableDev dev fs.inodeTable }

/-- `FileSystem.create`: zero-filled image of `size_mb` MiB, fresh allocator
and superblock written to blocks 0 and 1, root directory inode 1 with one
allocated zeroed block, inode table written, `next_inode = 2`.  Returns `none`
when the root-block allocation fails (`size_mb = 0`; Python would raise). -/
def createFS (sizeMB now : Nat) : Option FS :=
  let totalBlocks := sizeMB * 1048576 / 4096
  let bm := mkBitmap totalBlocks
  let sb := mkSuperblock totalBlocks 1000
  let dev : Nat → List Nat := fun _ => zeros4096
  let dev := writeBlock dev 0 (sbToBytes sb)
  let dev := writeBlock dev 1
    (bm.take 4096 ++ List.replicate (4096 - min bm.length 4096) 0)
  match allocateBlock bm totalBlocks with
  | none => none
  | some (rootBlock, bm) =>
    let root := { mkInode 2 now with
      directBlocks := (List.replicate 12 0).set 0 rootBlock
      blockCount := 1 }
    let dev := writeBlock dev rootBlock zeros4096
    let dev := writeInodeTableDev dev [(1, root)]
    some { device := dev
           bitmap := bm
           totalBlocks := totalBlocks
           sb := sb
           inodeTable := [(1, root)]
           nextInode := 2 }

/-- `FileSystem.open`: read superblock, bitmap (the whole of block 1) and
inode table from the image; `next_inode = max(keys, default=1) + 1` (all keys
are ≥ 1, so folding `max` from 1 is the same value). -/
def openFS (dev : Nat → List Nat) : FS :=
  let sb := sbFromBytes (dev 0)
  let t := readInodeTableDev dev
  { device := dev
    bitmap := dev 1
    totalBlocks := sb.totalBlocks
    sb := sb
    inodeTable := t
    nextInode := ((tableKeys t).foldl max 1) + 1 }

/-! ## Path handling (`_split_path`, `_find_inode`) -/

/-- `path.rstrip('/')`. -/
def rstripSlash (l : List Nat) : List Nat :=
  (l.reverse.dropWhile (fun c => c = 47)).reverse

/-- `path.strip('/')`. -/
def stripSlash (l : List Nat) : List Nat :=
  (rstripSlash l).dropWhile (fun c => c = 47)

/-- `path.rfind('/')` as an `Option` (Python returns `-1` for "absent"). -/
def rfindSlash : List Nat → Option Nat
  | [] => none
  | c :: rest =>
    match rfindSlash rest with
    | some k => some (k + 1)
    | none => if c = 47 then some 0 else none

/-- `path.split('/')` (on byte 47). -/
def splitOnSlash : List Nat → List (List Nat)
  | [] => [[]]
  | c :: rest =>
    if c = 47 then [] :: splitOnSlash rest
    else
      match splitOnSlash rest with
      | [] => [[c]]
      | g :: gs => (c :: g) :: gs

/-- `FileSystem._split_path`: strip trailing slashes, then split at the last
slash.  `none` models the Python `(None, None)` branch, which compares the
stripped string against `"/"`; that branch is dead code because stripping
removes every trailing slash (see `rstripSlash_ne_slash`). -/
def splitPath (path : List Nat) : Option (List Nat × List Nat) :=
  let p := rstripSlash path
  if p = [47] then none
  else
    match rfindSlash p with
    | none => some ([47], p)
    | some pos =>
      if pos = 0 then some ([47], p.drop 1)
      else some (p.take pos, p.drop (pos + 1))

/-- The inner block scan of `_lookup_in_directory` over the pending loop
indices (`for i in range(block_count)`, applied to `List.range block_count`):
`break` once an index reaches 12 (the remaining indices of the ascending range
are all ≥ 12 as well), `continue` on a zero slot, return the first entry whose
name matches. -/
def lookLoop (dev : Nat → List Nat) (db : List Nat) (name : List Nat) :
    List Nat → Option Nat
  | [] => none
  | j :: js =>
    if j ≥ 12 then none
    else
      let b := db.getD j 0
      if b = 0 then lookLoop dev db name js
      else
        match ((scanDir (dev b)).1.find? (fun e => e.name = name)) with
        | some e => some e.inodeNum
        | none => lookLoop dev db name js

/-- `FileSystem._lookup_in_directory` (a `None` directory inode number, as
produced by a failed parent resolution, looks up nothing). -/
def lookupInDirectory (fs : FS) (dirInodeNum : Option Nat) (name : List Nat) :
    Option Nat :=
  match dirInodeNum with
  | none => none
  | some d =>
    match tableLookup fs.inodeTable d with
    | none => none
    | some ino =>
      if ino.fileType ≠ 2 then none
      else lookLoop fs.device ino.directBlocks name (List.range ino.blockCount)

/-- The component walk of `_find_inode`. -/
def walkParts (fs : FS) : List (List Nat) → Nat → Option Nat
  | [], cur => some cur
  | part :: rest, cur =>
    match lookupInDirectory fs (some cur) part with
    | none => none
    | some nxt => walkParts fs rest nxt

/-- `FileSystem._find_inode`. -/
def findInode (fs : FS) (path : List Nat) : Option Nat :=
  if path = [47] then some fs.sb.rootInode
  else
    walkParts fs ((splitOnSlash (stripSlash path)).filter (fun s => s ≠ []))
      fs.sb.rootInode

/-! ## Directory mutation (`_add_dir_entry`, `_remove_dir_entry`) -/

/-- `FileSystem._add_dir_entry`.  When the directory has no block yet the
source allocates one first; an exhausted allocator then flows `None` into
`read_block` and raises (`none`).  A full directory is a silent no-op (but the
block-count mutation of the empty-directory path persists, as in the source). -/
def addDirEntry (fs : FS) (dirInodeNum : Option Nat) (name : List Nat)
    (inodeNum : Nat) : Option FS :=
  let eb := pack32 inodeNum ++ pack32 name.length ++ name
  match dirInodeNum with
  | none => some fs
  | some d =>
    match tableLookup fs.inodeTable d with
    | none => some fs
    | some ino =>
      let step : Option (Nat × FS) :=
        if ino.blockCount = 0 then
          match allocateBlock fs.bitmap fs.totalBlocks with
          | none => none
          | some (nb, bm) =>
            let ino := { ino with
              directBlocks := ino.directBlocks.set 0 nb
              blockCount := 1 }
            some (nb, { fs with
              bitmap := bm
              inodeTable := tableSet fs.inodeTable d ino })
        else some (ino.directBlocks.getD 0 0, fs)
      match step with
      | none => none
      | some (blockNum, fs) =>
        let blockData := fs.device blockNum
        let off := (scanDir blockData).2
        if off + eb.length > 4096 then some fs
        else some { fs with
          device := writeBlock fs.device blockNum (spliceAt blockData off eb) }

/-- Re-serialize directory entries into a fresh zero block, skipping entries
that no longer fit (`_remove_dir_entry`'s rewrite loop). -/
def rebuildBlock (entries : List DirEntry) : List Nat :=
  (entries.foldl
    (fun (acc : List Nat × Nat) e =>
      let eb := e.toBytes
      if acc.2 + eb.length ≤ 4096 then (spliceAt acc.1 acc.2 eb, acc.2 + eb.length)
      else acc)
    (zeros4096, 0)).1

/-- The block loop of `_remove_dir_entry` over the pending loop indices: the
first nonzero direct block is rewritten without the matching entries and the
loop returns. -/
def removeLoop (fs : FS) (db : List Nat) (name : List Nat) : List Nat → FS
  | [] => fs
  | j :: js =>
    if j ≥ 12 then fs
    else
      let b := db.getD j 0
      if b = 0 then removeLoop fs db name js
      else
        let entries := (scanDir (fs.device b)).1.filter (fun e => e.name ≠ name)
        { fs with device := writeBlock fs.device b (rebuildBlock entries) }

/-- `FileSystem._remove_dir_entry`. -/
def removeDirEntry (fs : FS) (dirInodeNum : Option Nat) (name : List Nat) : FS :=
  match dirInodeNum with
  | none => fs
  | some d =>
    match tableLookup fs.inodeTable d with
    | none => fs
    | some ino => removeLoop fs ino.directBlocks name (List.range ino.blockCount)

/-! ## Public operations -/

/-- `FileSystem.create_file`.  The `splitPath … = none` branch is dead code
(`splitPath_ne_none`); in it the Python source would raise, and the model
returns the state unchanged. -/
def createFile (fs : FS) (path : List Nat) (now : Nat) : Option FS :=
  match splitPath path with
  | none => some fs
  | some (parentPath, filename) =>
    let parent? := findInode fs parentPath
    match lookupInDirectory fs parent? filename with
    | some _ => some fs
    | none =>
      let inodeNum := fs.nextInode
      let fs := { fs with
        nextInode := inodeNum + 1
        inodeTable := tableSet fs.inodeTable inodeNum (mkInode 1 now) }
      (addDirEntry fs parent? filename inodeNum).map sync

/-- `FileSystem.create_directory`.  `none` models the exception raised when
`allocate_block` returns `None` and flows into `write_block`. -/
def createDirectory (fs : FS) (path : List Nat) (now : Nat) : Option FS :=
  match splitPath path with
  | none => some fs
  | some (parentPath, dirname) =>
    let parent? := findInode fs parentPath
    match lookupInDirectory fs parent? dirname with
    | some _ => some fs
    | none =>
      match allocateBlock fs.bitmap fs.totalBlocks with
      | none => none
      | some (dirBlock, bm) =>
        let inodeNum := fs.nextInode
        let ino := { mkInode 2 now with
          directBlocks := (List.replicate 12 0).set 0 dirBlock
          blockCount := 1 }
        let fs := { fs with
          bitmap := bm
          nextInode := inodeNum + 1
          inodeTable := tableSet fs.inodeTable inodeNum ino
          device := writeBlock fs.device dirBlock zeros4096 }
        (addDirEntry fs parent? dirname inodeNum).map sync

/-- The loop state of `write_file`'s allocate-and-write loop. -/
structure WState where
  bitmap : List Nat
  device : Nat → List Nat
  db : List Nat
  written : Nat

/-- One iteration of `write_file`'s loop: allocate (an exhausted allocator
makes the Python source raise on `write_block(None, …)`, hence `none`), store
the block in slot `i`, write the zero-padded chunk. -/
def writeStep (total : Nat) (data : List Nat) (s : WState) (i : Nat) :
    Option WState :=
  match allocateBlock s.bitmap total with
  | none => none
  | some (b, bm) =>
    let toWrite := min (data.length - s.written) 4096
    let chunk := (data.drop s.written).take toWrite
    some { bitmap := bm
           device := writeBlock s.device b (chunk ++ List.replicate (4096 - toWrite) 0)
           db := s.db.set i b
           written := s.written + toWrite }

/-- `FileSystem.write_file`: resolve, require REGULAR, free the current direct
blocks (zeroing the slots), allocate and write `min(ceil(len/4096), 12)`
blocks, update `size`/`block_count`/`modified`, sync. -/
def writeFile (fs : FS) (path data : List Nat) (now : Nat) : Option FS :=
  match findInode fs path with
  | none => some fs
  | some i =>
    match tableLookup fs.inodeTable i with
    | none => some fs
    | some ino =>
      if ino.fileType ≠ 1 then some fs
      else
        let freed := (List.range ino.blockCount).foldl
          (fun (acc : List Nat × List Nat) idx =>
            if idx < 12 ∧ acc.2.getD idx 0 ≠ 0 then
              (freeBlock acc.1 fs.totalBlocks (acc.2.getD idx 0), acc.2.set idx 0)
            else acc)
          (fs.bitmap, ino.directBlocks)
        let blocksNeeded := (data.length + 4095) / 4096
        match (List.range (min blocksNeeded 12)).foldlM
            (writeStep fs.totalBlocks data)
            { bitmap := freed.1, device := fs.device, db := freed.2, written := 0 } with
        | none => none
        | some s =>
          let ino := { ino with
            size := data.length
            blockCount := blocksNeeded
            directBlocks := s.db
            modified := now }
          some (sync { fs with
            bitmap := s.bitmap
            device := s.device
            inodeTable := tableSet fs.inodeTable i ino })

/-- The read loop of `read_file` over the pending loop indices: for each
valid direct block, append `min(remaining, 4096)` bytes, `break` on a zero
slot, an index ≥ 12 or an exhausted remainder. -/
def readLoop (dev : Nat → List Nat) (db : List Nat) :
    List Nat → Nat → List Nat
  | [], _ => []
  | j :: js, remaining =>
    if j ≥ 12 then []
    else
      let b := db.getD j 0
      if b = 0 then []
      else
        let toRead := min remaining 4096
        let part := (dev b).take toRead
        if remaining - toRead = 0 then part
        else part ++ readLoop dev db js (remaining - toRead)

/-- `FileSystem.read_file`. -/
def readFile (fs : FS) (path : List Nat) : List Nat :=
  match findInode fs path with
  | none => []
  | some i =>
    match tableLookup fs.inodeTable i with
    | none => []
    | some ino =>
      if ino.fileType ≠ 1 then []
      else readLoop fs.device ino.directBlocks (List.range ino.blockCount) ino.size

/-- The block loop of `list_directory` over the pending loop indices
(`break` on a zero slot or an index ≥ 12). -/
def listLoop (dev : Nat → List Nat) (db : List Nat) :
    List Nat → List (List Nat)
  | [] => []
  | j :: js =>
    if j ≥ 12 then []
    else
      let b := db.getD j 0
      if b = 0 then []
      else (scanDir (dev b)).1.map DirEntry.name ++ listLoop dev db js

/-- `FileSystem.list_directory`: the entry names, in block order. -/
def listDirectory (fs : FS) (path : List Nat) : List (List Nat) :=
  match findInode fs path with
  | none => []
  | some i =>
    match tableLookup fs.inodeTable i with
    | none => []
    | some ino =>
      if ino.fileType ≠ 2 then []
      else listLoop fs.device ino.directBlocks (List.range ino.blockCount)

/-- `FileSystem.delete_file`: resolve the parent, look the name up, free the
file's blocks, delete the inode, rewrite the parent directory block, sync.
The `splitPath … = none` branch is dead code (`splitPath_ne_none`). -/
def deleteFile (fs : FS) (path : List Nat) : FS :=
  match splitPath path with
  | none => fs
  | some (parentPath, filename) =>
    let parent? := findInode fs parentPath
    match lookupInDirectory fs parent? filename with
    | none => fs
    | some fileInodeNum =>
      match tableLookup fs.inodeTable fileInodeNum with
      | none => fs
      | some ino =>
        let bm := (List.range ino.blockCount).foldl
          (fun bm idx =>
            if idx < 12 ∧ ino.directBlocks.getD idx 0 ≠ 0 then
              freeBlock bm fs.totalBlocks (ino.directBlocks.getD idx 0)
            else bm)
          fs.bitmap
        let fs := { fs with
          bitmap := bm
          inodeTable := tableErase fs.inodeTable fileInodeNum }
        sync (removeDirEntry fs parent? filename)

/-! ## `tree` (`FileSystem.tree`) -/

/-- The `"└── "` / `"├── "` connector (UTF-8 bytes). -/
def connector (isLast : Bool) : List Nat :=
  if isLast then [226, 148, 148, 226, 148, 128, 226, 148, 128, 32]
  else [226, 148, 156, 226, 148, 128, 226, 148, 128, 32]

/-- The `"⚠️  [CYCLE DETECTED]"` marker (UTF-8 bytes). -/
def cycleMarker : List Nat :=
  [226, 154, 160, 239, 184, 143, 32, 32,
   91, 67, 89, 67, 76, 69, 32, 68, 69, 84, 69, 67, 84, 69, 68, 93]

/-- The `"📁 "` directory icon (UTF-8 bytes). -/
def dirIcon : List Nat := [240, 159, 147, 129, 32]

/-- The `"📄 "` file icon (UTF-8 bytes). -/
def fileIcon : List Nat := [240, 159, 147, 132, 32]

/-- `path.split('/')[-1]` (`splitOnSlash` never returns `[]`). -/
def lastComponent (path : List Nat) : List Nat :=
  (splitOnSlash path).getLastD []

/-- The child path built by `tree`. -/
def childPath (path entry : List Nat) : List Nat :=
  if path = [47] then [47] ++ entry else path ++ [47] ++ entry

/-- Number of inode-table keys not yet in the visited set: the termination
measure of `tree` (the source terminates because each recursive call adds a
table key to the visited set). -/
def treeKeysLeft (fs : FS) (visited : List Nat) : Nat :=
  ((tableKeys fs.inodeTable).filter (fun k => !decide (k ∈ visited))).length

theorem length_filter_le_of_imp {f g : Nat → Bool} (l : List Nat)
    (h : ∀ x ∈ l, g x = true → f x = true) :
    (l.filter g).length ≤ (l.filter f).length := by
  induction l with
  | nil => simp
  | cons a tl ih =>
    have htl : ∀ x ∈ tl, g x = true → f x = true := fun x hx => h x (by simp [hx])
    by_cases hg : g a = true
    · have hf : f a = true := h a (by simp) hg
      simpa [List.filter_cons, hg, hf] using ih htl
    · have hg' : g a = false := by revert hg; cases g a <;> simp
      by_cases hf : f a = true
      · simp only [List.filter_cons, hg', hf]
        exact le_trans (ih htl) (by simp)
      · have hf' : f a = false := by revert hf; cases f a <;> simp
        simpa [List.filter_cons, hg', hf'] using ih htl

theorem treeKeysLeft_lt {l v : List Nat} {i : Nat} (hi : i ∈ l) (hv : i ∉ v) :
    (l.filter (fun k => !decide (k ∈ i :: v))).length <
      (l.filter (fun k => !decide (k ∈ v))).length := by
  induction l with
  | nil => cases hi
  | cons a tl ih =>
    have himp : ∀ x ∈ tl, (!decide (x ∈ i :: v)) = true → (!decide (x ∈ v)) = true := by
      intro x _ hx
      simp only [Bool.not_eq_true', decide_eq_false_iff_not, List.mem_cons] at hx ⊢
      exact fun hxv => hx (Or.inr hxv)
    by_cases hai : a = i
    · subst hai
      have h1 : (!decide (a ∈ a :: v)) = false := by simp
      have h2 : (!decide (a ∈ v)) = true := by simp [hv]
      simp only [List.filter_cons, h1, h2]
      exact Nat.lt_succ_of_le (length_filter_le_of_imp tl himp)
    · have hi' : i ∈ tl := by
        rcases List.mem_cons.mp hi with h | h
        · exact absurd h.symm hai
        · exact h
      have heq : decide (a ∈ i :: v) = decide (a ∈ v) := by
        simp [List.mem_cons, hai]
      simp only [List.filter_cons, heq]
      by_cases ha : (!decide (a ∈ v)) = true
      · simpa [ha] using Nat.succ_lt_succ (ih hi')
      · have ha' : (!decide (a ∈ v)) = false := by revert ha; cases (!decide (a ∈ v)) <;> simp
        simpa [ha'] using ih hi'

theorem tableLookup_mem_keys {t : List (Nat × Inode)} {k : Nat} {v : Inode}
    (h : tableLookup t k = some v) : k ∈ tableKeys t := by
  induction t with
  | nil => simp [tableLookup] at h
  | cons p rest ih =>
    by_cases hp : p.1 = k
    · simp [tableKeys, hp]
    · simp only [tableLookup, hp, if_false] at h
      simpa [tableKeys] using Or.inr (ih h)

mutual

/-- `FileSystem.tree`: preorder rendering with per-branch visited sets.  The
definition being accepted by well-founded recursion is the termination half of
the cycle claim; the revisit behaviour is `tree_cycle_marker`. -/
def tree (fs : FS) (path pfx : List Nat) (isLast : Bool) (visited : List Nat) :
    List (List Nat) :=
  match findInode fs path with
  | none => []
  | some inum =>
    if _hmem : inum ∈ visited then [pfx ++ connector isLast ++ cycleMarker]
    else
      match _htab : tableLookup fs.inodeTable inum with
      | none => []
      | some ino =>
        let name := if path = [47] then [47] else lastComponent path
        let icon := if ino.fileType = 2 then dirIcon else fileIcon
        let selfLine :=
          if pfx = [] then icon ++ name else pfx ++ connector isLast ++ icon ++ name
        if ino.fileType = 2 then
          let newPfx := if pfx = [] then [9] else pfx ++ [9]
          selfLine ::
            treeChildren fs path newPfx (inum :: visited) (listDirectory fs path)
        else [selfLine]
termination_by (treeKeysLeft fs visited, 0)
decreasing_by
  exact Prod.Lex.left _ _ (treeKeysLeft_lt (tableLookup_mem_keys _htab) _hmem)

/-- The child loop of `tree` (`is_last` is true exactly for the final entry). -/
def treeChildren (fs : FS) (path newPfx : List Nat) (visited : List Nat) :
    List (List Nat) → List (List Nat)
  | [] => []
  | [e] => tree fs (childPath path e) newPfx true visited
  | e :: rest =>
    tree fs (childPath path e) newPfx false visited ++
      treeChildren fs path newPfx visited rest
termination_by entries => (treeKeysLeft fs visited, entries.length + 1)
decreasing_by
  · exact Prod.Lex.right _ (by simp)
  · exact Prod.Lex.right _ (by simp)
  · exact Prod.Lex.right _ (by simp)

end

/-! ## Operations, reachability, invariants -/

/-- The state-mutating public operations (the read-only operations
`read_file`, `list_directory`, `get_file_info`, `get_stats`, `tree` do not
change the state). -/
inductive Op where
  | opCreateFile (path : List Nat) (now : Nat)
  | opCreateDirectory (path : List Nat) (now : Nat)
  | opWriteFile (path data : List Nat) (now : Nat)
  | opDeleteFile (path : List Nat)

/-- Apply one public operation; `none` is an escaped Python exception. -/
def applyOp (fs : FS) : Op → Option FS
  | .opCreateFile p now => createFile fs p now
  | .opCreateDirectory p now => createDirectory fs p now
  | .opWriteFile p d now => writeFile fs p d now
  | .opDeleteFile p => some (deleteFile fs p)

/-- States reachable from a freshly created image by public operations
(within one mount). -/
inductive Reach : FS → Prop
  | create (sizeMB now : Nat) (fs : FS) : createFS sizeMB now = some fs → Reach fs
  | step (fs : FS) (op : Op) (fs' : FS) :
      Reach fs → applyOp fs op = some fs' → Reach fs'

/-- The data blocks an inode actually references: the nonzero entries of the
first `min(block_count, 12)` direct slots (exactly the blocks the loops of
`_lookup_in_directory` / `write_file`'s free phase / `delete_file` touch). -/
def usedBlocks (ino : Inode) : List Nat :=
  (ino.directBlocks.take (min ino.blockCount 12)).filter (fun b => b ≠ 0)

/-- Size/block-count consistency of every inode in the table. -/
def SizeInv (fs : FS) : Prop :=
  ∀ p ∈ fs.inodeTable, p.2.size ≤ p.2.blockCount * 4096

/-- All inode-table keys are below the next-inode counter. -/
def KeysBelowNext (fs : FS) : Prop :=
  ∀ k ∈ tableKeys fs.inodeTable, k < fs.nextInode

/-- Well-formedness of a mounted filesystem, relative to a target regular
inode `ino`: the bitmap covers the block range, the ten metadata blocks are
marked allocated, every directory's data blocks are high, marked allocated and
disjoint from the target file's blocks, and the target file's own blocks are
high.  All of this holds of any image the implementation itself produces. -/
structure Wf (fs : FS) (ino : Inode) : Prop where
  bitmapCovers : fs.totalBlocks ≤ 8 * fs.bitmap.length
  reservedAllocated : ∀ j, j < 10 → isAllocated fs.bitmap j = true
  dirBlocksOk : ∀ p ∈ fs.inodeTable, p.2.fileType = 2 →
    ∀ b ∈ usedBlocks p.2, 10 ≤ b ∧ isAllocated fs.bitmap b = true ∧ b ∉ usedBlocks ino
  targetBlocksHigh : ∀ b ∈ usedBlocks ino, 10 ≤ b
  targetDbLen : ino.directBlocks.length = 12

/-- The invariant of `write_file`'s allocate-and-write loop after `j`
iterations from `s0`: `bs` lists the blocks allocated so far, in order. -/
structure LoopInv (total : Nat) (data : List Nat) (s0 : WState) (j : Nat)
    (s : WState) (bs : List Nat) : Prop where
  written : s.written = min data.length (4096 * j)
  bmlen : s.bitmap.length = s0.bitmap.length
  dblen : s.db.length = s0.db.length
  count : freeCount s.bitmap total + j = freeCount s0.bitmap total
  mono : ∀ x, isAllocated s0.bitmap x = true → isAllocated s.bitmap x = true
  bslen : bs.length = j
  bsmem : ∀ x ∈ bs, x < total ∧ isAllocated s0.bitmap x = false ∧
    isAllocated s.bitmap x = true
  dbgetD : ∀ m, m < j → s.db.getD m 0 = bs.getD m 0
  devOther : ∀ b, b ∉ bs → s.device b = s0.device b
  devChunk : ∀ m, m < j → s.device (bs.getD m 0) =
    (data.drop (4096 * m)).take (min (data.length - 4096 * m) 4096) ++
      List.replicate (4096 - min (data.length - 4096 * m) 4096) 0

/-- `fs'` preserves every directory inode of `fs` together with the contents
of its data blocks: exactly what path resolution reads. -/
def TablePreserved (fs fs' : FS) : Prop :=
  ∀ n d, tableLookup fs.inodeTable n = some d → d.fileType = 2 →
    tableLookup fs'.inodeTable n = some d ∧
    ∀ b ∈ usedBlocks d, fs'.device b = fs.device b

/-! ## Concrete states used by witnesses and counterexamples -/

/-- A trivial placeholder state (only used as a `getD` default that is never
reached). -/
def fsEmpty : FS :=
  { device := fun _ => []
    bitmap := []
    totalBlocks := 0
    sb := mkSuperblock 0 0
    inodeTable := []
    nextInode := 0 }

/-- A freshly created 1 MiB image (256 blocks). -/
def fs1 : FS := (createFS 1 0).getD fsEmpty

/-- `fs1` after `create_file("/a")`. -/
def fsA : FS := (createFile fs1 [47, 97] 0).getD fsEmpty

/-- The regular inode (number 2) of `/a` in `fsA`. -/
def inoA : Inode := (tableLookup fsA.inodeTable 2).getD (mkInode 1 0)

/-- The two-letter name `"/xy"` used to build many distinct paths. -/
def nm2 (i : Nat) : List Nat := [47, 97 + i / 16, 97 + i % 16]

/-- `fs1` after creating 32 files in `/` (33 live inodes, more than the 31
that fit in the single inode-table block). -/
def fs32 : Option FS :=
  (createFS 1 0).bind (fun fs0 =>
    (List.range 32).foldlM (fun fs i => createFile fs (nm2 i) 0) fs0)

/-- `create_file("/f")` then `write_file("/f", 49153 bytes)`: one byte over
the 48 KiB direct-block capacity. -/
def fsOversize : Option FS := do
  let a ← createFS 1 0
  let b ← createFile a [47, 102] 0
  writeFile b [47, 102] (List.replicate 49153 0) 0

/-- `fs1` after 244 `create_directory` calls: every data block except one is
allocated (ten metadata blocks, the root block, 244 directory blocks). -/
def fsAlmostFull : Option FS :=
  (createFS 1 0).bind (fun fs0 =>
    (List.range 244).foldlM (fun fs i => createDirectory fs (nm2 i) 0) fs0)

/-- `create_file("/zz")` on the almost-full image, then a two-block write:
the second `allocate_block` returns `None` and the write raises. -/
def fsWriteFull : Option FS := do
  let a ← fsAlmostFull
  let b ← createFile a [47, 122, 122] 0
  writeFile b [47, 122, 122] (List.replicate 8192 7) 0

/-- `create_file("/aa")` on a fresh image: the file gets inode 2. -/
def fsReuseA : Option FS :=
  (createFS 1 0).bind (fun a => createFile a [47, 97, 97] 0)

/-- Delete `"/aa"`, close and reopen the image, then `create_file("/ab")`:
`next_inode` is recomputed as `max(keys)+1 = 2` and inode number 2 is
assigned a second time. -/
def fsReuseB : Option FS :=
  (fsReuseA.map (fun b => openFS (deleteFile b [47, 97, 97]).device)).bind
    (fun d => createFile d [47, 97, 98] 0)

/-- A root directory block whose single entry is `"f" ↦ inode 2`. -/
def rootBlockWithF : List Nat :=
  spliceAt zeros4096 0 (pack32 2 ++ pack32 1 ++ [102])

/-- A mounted state whose allocator bitmap is completely full (the logical
situation after the data area has been exhausted, e.g. by 244
`create_directory` calls on a 1 MiB image): root directory holding the
regular file `"/f"`, no free block anywhere. -/
def fsDiskFull : FS :=
  { device := fun b => if b = 10 then rootBlockWithF else zeros4096
    bitmap := List.replicate 32 255
    totalBlocks := 256
    sb := { mkSuperblock 256 1000 with freeBlocks := 0 }
    inodeTable :=
      [(1, { mkInode 2 0 with
              directBlocks := (List.replicate 12 0).set 0 10
              blockCount := 1 }),
       (2, mkInode 1 0)]
    nextInode := 3 }

/-! ## General lemmas -/

theorem dropWhile_slash_ne_cons (l t : List Nat) :
    l.dropWhile (fun c => c = 47) ≠ 47 :: t := by
  induction l with
  | nil => simp [List.dropWhile]
  | cons a rest ih =>
    by_cases ha : a = 47
    · simpa [List.dropWhile, ha] using ih
    · simp only [List.dropWhile, decide_eq_true_eq, ha, if_false]
      intro h
      exact ha (by injection h)

/-- The `(None, None)` branch of `_split_path` is dead code: stripping removes
every trailing slash, so the stripped path is never `"/"`. -/
theorem rstripSlash_ne_slash (l : List Nat) : rstripSlash l ≠ [47] := by
  intro h
  have h2 : l.reverse.dropWhile (fun c => c = 47) = [47] := by
    have := congrArg List.reverse h
    simpa [rstripSlash] using this
  exact dropWhile_slash_ne_cons l.reverse [] h2

theorem splitPath_ne_none (path : List Nat) : splitPath path ≠ none := by
  unfold splitPath
  rw [if_neg (rstripSlash_ne_slash path)]
  cases rfindSlash (rstripSlash path) with
  | none => simp
  | some pos =>
    by_cases h : pos = 0 <;> simp [h]

theorem tableLookup_mem {t : List (Nat × Inode)} {k : Nat} {v : Inode}
    (h : tableLookup t k = some v) : (k, v) ∈ t := by
  induction t with
  | nil => simp [tableLookup] at h
  | cons p rest ih =>
    by_cases hp : p.1 = k
    · simp only [tableLookup, hp, if_true, Option.some.injEq] at h
      have hpv : p = (k, v) := by
        calc p = (p.1, p.2) := rfl
          _ = (k, v) := by rw [hp, h]
      rw [hpv]
      exact List.mem_cons_self _ _
    · simp only [tableLookup, hp, if_false] at h
      exact List.mem_cons_of_mem _ (ih h)

/-! ## C10: `Superblock.from_bytes` discards the stored magic -/

/-- C10: for every 4096-byte block `b`, `Superblock.from_bytes(b)` has
`magic = 0xDEADBEEF` independently of `b[0:4]`, while `block_size`,
`total_blocks`, `inode_count`, `free_blocks` and `root_inode` are read from
their little-endian slices; consequently any two blocks agreeing from byte 4
on decode to the same superblock. -/
theorem C10_from_bytes_magic (b : List Nat) (_h : b.length = 4096) :
    (sbFromBytes b).magic = MAGIC_NUMBER ∧
    (sbFromBytes b).blockSize = le32 (b.drop 4) ∧
    (sbFromBytes b).totalBlocks = le32 (b.drop 8) ∧
    (sbFromBytes b).inodeCount = le32 (b.drop 12) ∧
    (sbFromBytes b).freeBlocks = le32 (b.drop 16) ∧
    (sbFromBytes b).rootInode = le32 (b.drop 20) ∧
    ∀ c : List Nat, c.drop 4 = b.drop 4 → sbFromBytes c = sbFromBytes b := by
  refine ⟨rfl, rfl, rfl, rfl, rfl, rfl, ?_⟩
  intro c hc
  have h8 : c.drop 8 = b.drop 8 := by
    have := congrArg (List.drop 4) hc
    simpa [List.drop_drop] using this
  have h12 : c.drop 12 = b.drop 12 := by
    have := congrArg (List.drop 8) hc
    simpa [List.drop_drop] using this
  have h16 : c.drop 16 = b.drop 16 := by
    have := congrArg (List.drop 12) hc
    simpa [List.drop_drop] using this
  have h20 : c.drop 20 = b.drop 20 := by
    have := congrArg (List.drop 16) hc
    simpa [List.drop_drop] using this
  simp [sbFromBytes, hc, h8, h12, h16, h20]

/-- Witness for C10 at the all-zero block (whose stored magic bytes are zero,
not `0xDEADBEEF`). -/
theorem C10_witness :
    (List.replicate 4096 0).length = 4096 ∧
    (sbFromBytes (List.replicate 4096 0)).magic = MAGIC_NUMBER :=
  ⟨List.length_replicate 4096 0,
    (C10_from_bytes_magic (List.replicate 4096 0) (List.length_replicate 4096 0)).1⟩

/-! ## C8: `_split_path` -/

/-- Counterexample to C8 as stated: on the input `"/"` the source strips the
trailing slash first, so the stripped string is empty, the `(None, None)`
branch never fires and the result is `("/", "")`. -/
theorem C8_counterexample :
    splitPath [47] = some ([47], []) ∧ splitPath [47] ≠ none := by
  constructor
  · rfl
  · intro h
    exact splitPath_ne_none [47] h

/-- The amended `_split_path` specification: strip trailing slashes obtaining
`p`; the `"/" ↦ (None, None)` case is dead code (no input reaches it); if `p`
has no slash the result is `("/", p)`; if the last slash of `p` is at index 0
the result is `("/", p[1:])`; otherwise, with the last slash at index `i`, the
result is `(p[:i], p[i+1:])`. -/
def splitPathSpecAmended (path : List Nat) : Option (List Nat × List Nat) :=
  let p := rstripSlash path
  match rfindSlash p with
  | none => some ([47], p)
  | some pos =>
    if pos = 0 then some ([47], p.drop 1)
    else some (p.take pos, p.drop (pos + 1))

/-- C8 (amended): `_split_path` agrees with the amended specification on every
input (in particular it never returns the `(None, None)` value). -/
theorem C8_split_path_amended (path : List Nat) :
    splitPath path = splitPathSpecAmended path := by
  unfold splitPath splitPathSpecAmended
  rw [if_neg (rstripSlash_ne_slash path)]

/-! ## C6: creating an existing name is a complete no-op -/

/-- C6: if the name already exists in the resolved parent directory, both
`create_file` and `create_directory` return with the state completely
unchanged (no inode, no allocation, no `next_inode` advance, no device
write). -/
theorem C6_create_existing_noop (fs : FS) (path : List Nat) (now : Nat)
    (pp nm : List Nat) (hsplit : splitPath path = some (pp, nm))
    (hex : (lookupInDirectory fs (findInode fs pp) nm).isSome = true) :
    createFile fs path now = some fs ∧ createDirectory fs path now = some fs := by
  obtain ⟨j, hj⟩ := Option.isSome_iff_exists.mp hex
  constructor
  · unfold createFile
    rw [hsplit]
    simp [hj]
  · unfold createDirectory
    rw [hsplit]
    simp [hj]

/-- Witness for C6: `"/a"` already exists in `fsA`. -/
theorem C6_witness :
    splitPath [47, 97] = some ([47], [97]) ∧
    (lookupInDirectory fsA (findInode fsA [47]) [97]).isSome = true ∧
    createFile fsA [47, 97] 5 = some fsA ∧
    createDirectory fsA [47, 97] 5 = some fsA := by
  have h := C6_create_existing_noop fsA [47, 97] 5 [47] [97] (by decide) (by decide)
  exact ⟨by decide, by decide, h.1, h.2⟩

/-! ## C5: operations on unresolvable paths -/

/-- Counterexample to C5 as stated: `create_file("/a/b")` on a fresh image,
where the parent `/a` does not resolve, still creates an orphan inode,
advances `next_inode` from 2 to 3 and syncs — the state is mutated. -/
theorem C5_counterexample :
    findInode fs1 [47, 97, 47, 98] = none ∧
    (createFile fs1 [47, 97, 47, 98] 0).map FS.nextInode = some 3 ∧
    fs1.nextInode = 2 ∧
    (createFile fs1 [47, 97, 47, 98] 0).map (fun fs => fs.inodeTable.length) =
      some 2 ∧
    fs1.inodeTable.length = 1 := by decide

/-- C5 (amended): `write_file`, `read_file` and `list_directory` on a path
that does not resolve return silently with the state unchanged (the read-only
operations never mutate), and `delete_file` on a name that does not resolve in
its parent is a no-op; `create_file` and `create_directory` are excluded:
with an unresolvable parent they create an orphan inode (and the latter
allocates a block) without adding any directory entry. -/
theorem C5_path_not_found (fs : FS) (path data : List Nat) (now : Nat) :
    (findInode fs path = none →
      writeFile fs path data now = some fs ∧
      readFile fs path = [] ∧
      listDirectory fs path = []) ∧
    (∀ pp nm, splitPath path = some (pp, nm) →
      lookupInDirectory fs (findInode fs pp) nm = none →
      deleteFile fs path = fs) := by
  constructor
  · intro hfind
    refine ⟨?_, ?_, ?_⟩
    · unfold writeFile
      rw [hfind]
    · unfold readFile
      rw [hfind]
    · unfold listDirectory
      rw [hfind]
  · intro pp nm hsplit hlook
    unfold deleteFile
    rw [hsplit]
    simp only [hlook]

/-- Witness for C5 at the nonexistent path `"/x"` on a fresh image. -/
theorem C5_witness :
    findInode fs1 [47, 120] = none ∧
    writeFile fs1 [47, 120] [1, 2] 0 = some fs1 ∧
    readFile fs1 [47, 120] = [] ∧
    listDirectory fs1 [47, 120] = [] ∧
    deleteFile fs1 [47, 120] = fs1 := by
  have h := C5_path_not_found fs1 [47, 120] [1, 2] 0
  have h1 := h.1 (by decide)
  exact ⟨by decide, h1.1, h1.2.1, h1.2.2, h.2 [47] [120] (by decide) (by decide)⟩

/-! ## C9: `tree` terminates and marks cycles -/

/-- C9: `tree` is a total function (its definition is accepted by
well-founded recursion on the number of unvisited inode-table keys, which is
exactly why the source terminates on cyclic directory graphs), and on
revisiting an inode already on the current branch it emits precisely the
cycle-marker line under the connector selected by `is_last`, descending no
further. -/
theorem C9_tree_cycle (fs : FS) (path pfx : List Nat) (isLast : Bool)
    (visited : List Nat) (i : Nat)
    (hfind : findInode fs path = some i) (hmem : i ∈ visited) :
    tree fs path pfx isLast visited = [pfx ++ connector isLast ++ cycleMarker] := by
  rw [tree]
  simp only [hfind]
  rw [dif_pos hmem]

/-- Witness for C9: the root inode is already in the visited set, so `tree`
immediately prints the cycle marker. -/
theorem C9_witness :
    findInode fs1 [47] = some 1 ∧ 1 ∈ [1] ∧
    tree fs1 [47] [] true [1] = [[] ++ connector true ++ cycleMarker] :=
  ⟨by decide, by decide, C9_tree_cycle fs1 [47] [] true [1] 1 (by decide) (by decide)⟩

/-! ## C7: inode-number reuse across close/reopen -/

/-- Counterexample to C7 as stated: `"/aa"` is assigned inode 2; after
`delete_file("/aa")`, close and reopen, `next_inode` is recomputed as
`max(keys)+1 = 2` and `"/ab"` is assigned inode number 2 again — the number
is reused. -/
theorem C7_counterexample :
    (fsReuseA.map (fun fs => lookupInDirectory fs (some 1) [97, 97])) =
      some (some 2) ∧
    (fsReuseA.map (fun fs => (openFS (deleteFile fs [47, 97, 97]).device).nextInode)) =
      some 2 ∧
    (fsReuseB.map (fun fs => lookupInDirectory fs (some 1) [97, 98])) =
      some (some 2) := by decide

/-! ## C2: logical state does not survive close/reopen beyond 31 inodes -/

/-- C2 evaluated at the failing input: after creating 32 files in `/`
(33 live inodes, while one 4096-byte inode-table block holds 31 records of
132 bytes), `list_directory("/")` returns the 32 names before close, but
`_write_inode_table` has overwritten block 2 chunk by chunk, so the reopened
filesystem retains only the records of inodes 32 and 33: the root inode is
gone and `list_directory("/")` returns `[]`. -/
theorem C2_reopen_loses_inodes :
    (fs32.map (fun fs =>
      ((listDirectory fs [47]).length,
        listDirectory (openFS fs.device) [47],
        tableKeys (openFS fs.device).inodeTable))) = some (32, [], [32, 33]) := by
  decide

/-! ## C4: out-of-space `write_file` raises instead of aborting cleanly -/

/-- On any mounted state with no free block, `write_file` of nonempty data to
an empty regular file reaches `allocate_block() = None`, flows it into
`write_block(None, …)` and raises (modelled by `none`) instead of aborting
cleanly. -/
theorem writeFile_raises_of_no_free (fs : FS) (path data : List Nat)
    (now i : Nat) (ino : Inode)
    (hfind : findInode fs path = some i)
    (htab : tableLookup fs.inodeTable i = some ino)
    (hreg : ino.fileType = 1) (hbc : ino.blockCount = 0)
    (hfree : freeCount fs.bitmap fs.totalBlocks = 0)
    (hdata : 1 ≤ data.length) :
    writeFile fs path data now = none := by
  have halloc : allocateBlock fs.bitmap fs.totalBlocks = none := by
    unfold allocateBlock
    have hnone : (List.range fs.totalBlocks).find? (fun i => !isAllocated fs.bitmap i)
        = none := by
      rw [List.find?_eq_none]
      intro x hx
      have := List.countP_eq_zero.mp hfree x hx
      simpa using this
    rw [hnone]
  have hneed : 1 ≤ min ((data.length + 4095) / 4096) 12 := by
    have : 1 ≤ (data.length + 4095) / 4096 := by
      rw [Nat.le_div_iff_mul_le (by norm_num)]
      omega
    omega
  have hrange : ∃ rest, List.range (min ((data.length + 4095) / 4096) 12) =
      0 :: rest := by
    obtain ⟨k, hk⟩ : ∃ k, min ((data.length + 4095) / 4096) 12 = k + 1 :=
      ⟨min ((data.length + 4095) / 4096) 12 - 1, by omega⟩
    exact ⟨(List.range k).map (· + 1), by rw [hk, List.range_succ_eq_map]⟩
  obtain ⟨rest, hrest⟩ := hrange
  unfold writeFile
  simp only [hfind, htab]
  rw [if_neg (by simp [hreg])]
  rw [hbc]
  simp only [List.range_zero, List.foldl_nil, hrest, List.foldlM_cons]
  unfold writeStep
  rw [halloc]
  rfl

/-- C4 evaluated at a failing input: on the full-allocator state `fsDiskFull`
(the logical state after the data area is exhausted, e.g. by 244
`create_directory` calls on a 1 MiB image), writing 3 bytes to `"/f"`
raises. -/
theorem C4_out_of_space_write_raises :
    freeCount fsDiskFull.bitmap fsDiskFull.totalBlocks = 0 ∧
    findInode fsDiskFull [47, 102] = some 2 ∧
    writeFile fsDiskFull [47, 102] [7, 7, 7] 0 = none := by
  refine ⟨by decide, by decide, ?_⟩
  exact writeFile_raises_of_no_free fsDiskFull [47, 102] [7, 7, 7] 0 2
    (mkInode 1 0) (by decide) (by decide) (by decide) (by decide) (by decide)
    (by decide)

/-! ## Inode-table key lemmas -/

theorem tableKeys_tableSet_of_isSome {t : List (Nat × Inode)} {k : Nat}
    (v : Inode) (h : (tableLookup t k).isSome = true) :
    tableKeys (tableSet t k v) = tableKeys t := by
  unfold tableSet
  rw [if_pos h]
  unfold tableKeys
  rw [List.map_map]
  apply List.map_congr_left
  intro p _
  by_cases hp : p.1 = k
  · simp [hp]
  · simp [hp]

theorem tableKeys_tableSet_of_none {t : List (Nat × Inode)} {k : Nat}
    (v : Inode) (h : tableLookup t k = none) :
    tableKeys (tableSet t k v) = tableKeys t ++ [k] := by
  unfold tableSet
  rw [h]
  simp [tableKeys]

theorem tableLookup_none_of_lt {t : List (Nat × Inode)} {n : Nat}
    (h : ∀ j ∈ tableKeys t, j < n) : tableLookup t n = none := by
  induction t with
  | nil => rfl
  | cons p rest ih =>
    have hp : p.1 < n := h p.1 (by simp [tableKeys])
    have hne : p.1 ≠ n := Nat.ne_of_lt hp
    simp only [tableLookup, hne, if_false]
    exact ih (fun j hj => h j (by simp [tableKeys] at hj ⊢; exact Or.inr hj))

theorem mem_tableKeys_tableErase {t : List (Nat × Inode)} {k k' : Nat}
    (h : k' ∈ tableKeys (tableErase t k)) : k' ∈ tableKeys t := by
  unfold tableKeys tableErase at *
  obtain ⟨p, hp, hpk⟩ := List.mem_map.mp h
  exact List.mem_map.mpr ⟨p, (List.mem_filter.mp hp).1, hpk⟩

theorem sync_inodeTable (fs : FS) : (sync fs).inodeTable = fs.inodeTable := rfl

theorem sync_nextInode (fs : FS) : (sync fs).nextInode = fs.nextInode := rfl

theorem removeLoop_state (fs : FS) (db nm : List Nat) (js : List Nat) :
    (removeLoop fs db nm js).inodeTable = fs.inodeTable ∧
    (removeLoop fs db nm js).nextInode = fs.nextInode := by
  induction js with
  | nil => exact ⟨rfl, rfl⟩
  | cons j rest ih =>
    simp only [removeLoop]
    split
    · exact ⟨rfl, rfl⟩
    · split
      · exact ih
      · exact ⟨rfl, rfl⟩

theorem removeDirEntry_state (fs : FS) (d? : Option Nat) (nm : List Nat) :
    (removeDirEntry fs d? nm).inodeTable = fs.inodeTable ∧
    (removeDirEntry fs d? nm).nextInode = fs.nextInode := by
  unfold removeDirEntry
  split
  · exact ⟨rfl, rfl⟩
  · split
    · exact ⟨rfl, rfl⟩
    · exact removeLoop_state _ _ _ _

theorem addDirEntry_keys {fs fs' : FS} {d? : Option Nat} {nm : List Nat}
    {i : Nat} (h : addDirEntry fs d? nm i = some fs') :
    tableKeys fs'.inodeTable = tableKeys fs.inodeTable ∧
    fs'.nextInode = fs.nextInode := by
  cases d? with
  | none =>
    unfold addDirEntry at h
    injection h with h
    rw [← h]
    exact ⟨rfl, rfl⟩
  | some d =>
    cases htab : tableLookup fs.inodeTable d with
    | none =>
      unfold addDirEntry at h
      try dsimp only at h
      rw [htab] at h
      try dsimp only at h
      injection h with h
      rw [← h]
      exact ⟨rfl, rfl⟩
    | some ino =>
      unfold addDirEntry at h
      try dsimp only at h
      rw [htab] at h
      try dsimp only at h
      by_cases hbc : ino.blockCount = 0
      · rw [if_pos hbc] at h
        cases halloc : allocateBlock fs.bitmap fs.totalBlocks with
        | none =>
          rw [halloc] at h
          try dsimp only at h
          exact Option.noConfusion h
        | some pr =>
          obtain ⟨nb, bm⟩ := pr
          rw [halloc] at h
          try dsimp only at h
          have hkeys : tableKeys (tableSet fs.inodeTable d
              { ino with directBlocks := ino.directBlocks.set 0 nb, blockCount := 1 })
              = tableKeys fs.inodeTable :=
            tableKeys_tableSet_of_isSome _ (by rw [htab]; rfl)
          split at h <;> (injection h with h; rw [← h]; exact ⟨hkeys, rfl⟩)
      · rw [if_neg hbc] at h
        try dsimp only at h
        split at h <;> (injection h with h; rw [← h]; exact ⟨rfl, rfl⟩)

theorem le_foldl_max (l : List Nat) (a : Nat) :
    a ≤ l.foldl max a ∧ ∀ x ∈ l, x ≤ l.foldl max a := by
  induction l generalizing a with
  | nil => simp
  | cons b tl ih =>
    simp only [List.foldl_cons]
    have h := ih (max a b)
    refine ⟨le_trans (le_max_left a b) h.1, ?_⟩
    intro x hx
    rcases List.mem_cons.mp hx with rfl | hx
    · exact le_trans (le_max_right a x) h.1
    · exact h.2 x hx

theorem createFS_spec {sizeMB now : Nat} {fs : FS}
    (h : createFS sizeMB now = some fs) :
    fs.nextInode = 2 ∧ ∃ root : Inode, fs.inodeTable = [(1, root)] ∧
      root.size = 0 ∧ root.blockCount = 1 ∧ root.fileType = 2 := by
  unfold createFS at h
  try dsimp only at h
  split at h
  · exact Option.noConfusion h
  · injection h with h
    rw [← h]
    exact ⟨rfl, _, rfl, rfl, rfl, rfl⟩

theorem openFS_keysBelowNext (dev : Nat → List Nat) :
    KeysBelowNext (openFS dev) := by
  intro k hk
  have h := (le_foldl_max (tableKeys (readInodeTableDev dev)) 1).2 k hk
  have : (openFS dev).nextInode =
      (tableKeys (readInodeTableDev dev)).foldl max 1 + 1 := rfl
  omega

theorem createFile_keys {fs fs' : FS} {p : List Nat} {now : Nat}
    (hInv : KeysBelowNext fs) (h : createFile fs p now = some fs') :
    KeysBelowNext fs' ∧ fs.nextInode ≤ fs'.nextInode ∧
    ∀ k ∈ tableKeys fs'.inodeTable,
      k ∈ tableKeys fs.inodeTable ∨ fs.nextInode ≤ k := by
  unfold createFile at h
  cases hsp : splitPath p with
  | none =>
    rw [hsp] at h
    injection h with h
    rw [← h]
    exact ⟨hInv, Nat.le_refl _, fun k hk => Or.inl hk⟩
  | some pr =>
    obtain ⟨pp, nm⟩ := pr
    rw [hsp] at h
    try dsimp only at h
    cases hlk : lookupInDirectory fs (findInode fs pp) nm with
    | some j =>
      rw [hlk] at h
      try dsimp only at h
      injection h with h
      rw [← h]
      exact ⟨hInv, Nat.le_refl _, fun k hk => Or.inl hk⟩
    | none =>
      rw [hlk] at h
      try dsimp only at h
      obtain ⟨fs2, had, hsy⟩ := Option.map_eq_some'.mp h
      have hkeys2 := addDirEntry_keys had
      have hlk2 : tableLookup fs.inodeTable fs.nextInode = none :=
        tableLookup_none_of_lt hInv
      have hkeys1 : tableKeys (tableSet fs.inodeTable fs.nextInode (mkInode 1 now))
          = tableKeys fs.inodeTable ++ [fs.nextInode] :=
        tableKeys_tableSet_of_none _ hlk2
      rw [← hsy]
      have hkeysFinal : tableKeys (sync fs2).inodeTable =
          tableKeys fs.inodeTable ++ [fs.nextInode] := by
        rw [sync_inodeTable, hkeys2.1]
        exact hkeys1
      have hnextFinal : (sync fs2).nextInode = fs.nextInode + 1 := by
        rw [sync_nextInode, hkeys2.2]
      refine ⟨?_, ?_, ?_⟩
      · intro k hk
        rw [hkeysFinal] at hk
        rw [hnextFinal]
        rcases List.mem_append.mp hk with hk | hk
        · exact Nat.lt_succ_of_lt (hInv k hk)
        · simp only [List.mem_singleton] at hk
          omega
      · rw [hnextFinal]; omega
      · intro k hk
        rw [hkeysFinal] at hk
        rcases List.mem_append.mp hk with hk | hk
        · exact Or.inl hk
        · simp only [List.mem_singleton] at hk
          exact Or.inr (by omega)

theorem createDirectory_keys {fs fs' : FS} {p : List Nat} {now : Nat}
    (hInv : KeysBelowNext fs) (h : createDirectory fs p now = some fs') :
    KeysBelowNext fs' ∧ fs.nextInode ≤ fs'.nextInode ∧
    ∀ k ∈ tableKeys fs'.inodeTable,
      k ∈ tableKeys fs.inodeTable ∨ fs.nextInode ≤ k := by
  unfold createDirectory at h
  cases hsp : splitPath p with
  | none =>
    rw [hsp] at h
    injection h with h
    rw [← h]
    exact ⟨hInv, Nat.le_refl _, fun k hk => Or.inl hk⟩
  | some pr =>
    obtain ⟨pp, nm⟩ := pr
    rw [hsp] at h
    try dsimp only at h
    cases hlk : lookupInDirectory fs (findInode fs pp) nm with
    | some j =>
      rw [hlk] at h
      try dsimp only at h
      injection h with h
      rw [← h]
      exact ⟨hInv, Nat.le_refl _, fun k hk => Or.inl hk⟩
    | none =>
      rw [hlk] at h
      try dsimp only at h
      cases halloc : allocateBlock fs.bitmap fs.totalBlocks with
      | none =>
        rw [halloc] at h
        exact Option.noConfusion h
      | some pr2 =>
        obtain ⟨dirBlock, bm⟩ := pr2
        rw [halloc] at h
        try dsimp only at h
        obtain ⟨fs2, had, hsy⟩ := Option.map_eq_some'.mp h
        have hkeys2 := addDirEntry_keys had
        have hlk2 : tableLookup fs.inodeTable fs.nextInode = none :=
          tableLookup_none_of_lt hInv
        have hkeys1 : tableKeys (tableSet fs.inodeTable fs.nextInode
            { mkInode 2 now with
              directBlocks := (List.replicate 12 0).set 0 dirBlock
              blockCount := 1 })
            = tableKeys fs.inodeTable ++ [fs.nextInode] :=
          tableKeys_tableSet_of_none _ hlk2
        rw [← hsy]
        have hkeysFinal : tableKeys (sync fs2).inodeTable =
            tableKeys fs.inodeTable ++ [fs.nextInode] := by
          rw [sync_inodeTable, hkeys2.1]
          exact hkeys1
        have hnextFinal : (sync fs2).nextInode = fs.nextInode + 1 := by
          rw [sync_nextInode, hkeys2.2]
        refine ⟨?_, ?_, ?_⟩
        · intro k hk
          rw [hkeysFinal] at hk
          rw [hnextFinal]
          rcases List.mem_append.mp hk with hk | hk
          · exact Nat.lt_succ_of_lt (hInv k hk)
          · simp only [List.mem_singleton] at hk
            omega
        · rw [hnextFinal]; omega
        · intro k hk
          rw [hkeysFinal] at hk
          rcases List.mem_append.mp hk with hk | hk
          · exact Or.inl hk
          · simp only [List.mem_singleton] at hk
            exact Or.inr (by omega)

theorem writeFile_keys {fs fs' : FS} {p d : List Nat} {now : Nat}
    (hInv : KeysBelowNext fs) (h : writeFile fs p d now = some fs') :
    KeysBelowNext fs' ∧ fs.nextInode ≤ fs'.nextInode ∧
    ∀ k ∈ tableKeys fs'.inodeTable,
      k ∈ tableKeys fs.inodeTable ∨ fs.nextInode ≤ k := by
  unfold writeFile at h
  cases hf : findInode fs p with
  | none =>
    rw [hf] at h
    injection h with h
    rw [← h]
    exact ⟨hInv, Nat.le_refl _, fun k hk => Or.inl hk⟩
  | some i =>
    rw [hf] at h
    try dsimp only at h
    cases htab : tableLookup fs.inodeTable i with
    | none =>
      rw [htab] at h
      injection h with h
      rw [← h]
      exact ⟨hInv, Nat.le_refl _, fun k hk => Or.inl hk⟩
    | some ino =>
      rw [htab] at h
      try dsimp only at h
      by_cases hty : ino.fileType ≠ 1
      · rw [if_pos hty] at h
        injection h with h
        rw [← h]
        exact ⟨hInv, Nat.le_refl _, fun k hk => Or.inl hk⟩
      · rw [if_neg hty] at h
        split at h
        · exact Option.noConfusion h
        · injection h with h
          rw [← h]
          refine ⟨?_, Nat.le_refl _, ?_⟩
          · intro k hk
            rw [sync_inodeTable,
              tableKeys_tableSet_of_isSome _ (by rw [htab]; rfl)] at hk
            exact hInv k hk
          · intro k hk
            rw [sync_inodeTable,
              tableKeys_tableSet_of_isSome _ (by rw [htab]; rfl)] at hk
            exact Or.inl hk

theorem sync_remove_keys (fs0 : FS) (d? : Option Nat) (nm : List Nat) :
    tableKeys (sync (removeDirEntry fs0 d? nm)).inodeTable =
      tableKeys fs0.inodeTable ∧
    (sync (removeDirEntry fs0 d? nm)).nextInode = fs0.nextInode := by
  have h := removeDirEntry_state fs0 d? nm
  rw [sync_inodeTable, sync_nextInode, h.1, h.2]
  exact ⟨rfl, rfl⟩

theorem deleteFile_keys (fs : FS) (p : List Nat) (hInv : KeysBelowNext fs) :
    KeysBelowNext (deleteFile fs p) ∧ fs.nextInode ≤ (deleteFile fs p).nextInode ∧
    ∀ k ∈ tableKeys (deleteFile fs p).inodeTable,
      k ∈ tableKeys fs.inodeTable ∨ fs.nextInode ≤ k := by
  unfold deleteFile
  repeat' (first | split | dsimp only)
  all_goals try exact ⟨hInv, Nat.le_refl _, fun k hk => Or.inl hk⟩
  refine ⟨?_, ?_, ?_⟩
  · intro k hk
    rw [(sync_remove_keys _ _ _).1] at hk
    rw [(sync_remove_keys _ _ _).2]
    exact hInv k (mem_tableKeys_tableErase hk)
  · rw [(sync_remove_keys _ _ _).2]
  · intro k hk
    rw [(sync_remove_keys _ _ _).1] at hk
    exact Or.inl (mem_tableKeys_tableErase hk)

/-! ## C7: the amended within-a-mount statement -/

/-- C7 (amended): within a single mount, inode numbers are monotone and
never reused.  Precisely: both `FileSystem.create` and `FileSystem.open`
establish the invariant that every inode-table key is below `next_inode`;
every public operation preserves it, never decreases `next_inode`, and only
adds keys at or above the previous `next_inode`.  (Across close/reopen the
original claim fails: `open` recomputes `next_inode = max(keys)+1`, so
deleted numbers above the surviving maximum are reassigned —
`C7_counterexample`.) -/
theorem C7_inode_numbers_monotone_within_mount :
    (∀ sizeMB now fs, createFS sizeMB now = some fs → KeysBelowNext fs) ∧
    (∀ dev, KeysBelowNext (openFS dev)) ∧
    (∀ fs op fs', KeysBelowNext fs → applyOp fs op = some fs' →
      KeysBelowNext fs' ∧ fs.nextInode ≤ fs'.nextInode ∧
      ∀ k ∈ tableKeys fs'.inodeTable,
        k ∈ tableKeys fs.inodeTable ∨ fs.nextInode ≤ k) := by
  refine ⟨?_, openFS_keysBelowNext, ?_⟩
  · intro sizeMB now fs h
    obtain ⟨hnext, root, htab, -⟩ := createFS_spec h
    intro k hk
    rw [htab] at hk
    simp only [tableKeys, List.map_cons, List.map_nil, List.mem_singleton] at hk
    omega
  · intro fs op fs' hInv h
    cases op with
    | opCreateFile p now => exact createFile_keys hInv h
    | opCreateDirectory p now => exact createDirectory_keys hInv h
    | opWriteFile p d now => exact writeFile_keys hInv h
    | opDeleteFile p =>
      injection h with h
      rw [← h]
      exact deleteFile_keys fs p hInv

/-- Witness for C7: a fresh image satisfies the invariant, `create_file("/a")`
is a step to `fsA`, and the conclusions hold there. -/
theorem C7_witness :
    KeysBelowNext fs1 ∧
    (applyOp fs1 (Op.opCreateFile [47, 97] 0) = some fsA) ∧
    KeysBelowNext fsA ∧ fs1.nextInode ≤ fsA.nextInode :=
  have h1 : KeysBelowNext fs1 :=
    C7_inode_numbers_monotone_within_mount.1 1 0 fs1 rfl
  have hstep : applyOp fs1 (Op.opCreateFile [47, 97] 0) = some fsA := rfl
  have h2 := C7_inode_numbers_monotone_within_mount.2.2 fs1
    (Op.opCreateFile [47, 97] 0) fsA h1 hstep
  ⟨h1, hstep, h2.1, h2.2.1⟩

/-! ## C3: the size/block-count invariant -/

theorem mem_tableSet {t : List (Nat × Inode)} {k : Nat} {v : Inode}
    {p : Nat × Inode} (h : p ∈ tableSet t k v) : p ∈ t ∨ p = (k, v) := by
  unfold tableSet at h
  split at h
  · obtain ⟨q, hq, hpq⟩ := List.mem_map.mp h
    by_cases hqk : q.1 = k
    · rw [if_pos hqk] at hpq
      exact Or.inr hpq.symm
    · rw [if_neg hqk] at hpq
      exact Or.inl (hpq ▸ hq)
  · rcases List.mem_append.mp h with h | h
    · exact Or.inl h
    · right
      simpa using h

theorem mem_tableErase {t : List (Nat × Inode)} {k : Nat} {p : Nat × Inode}
    (h : p ∈ tableErase t k) : p ∈ t :=
  (List.mem_filter.mp h).1

theorem le_ceil_mul (n : Nat) : n ≤ (n + 4095) / 4096 * 4096 := by
  have h1 := Nat.div_add_mod (n + 4095) 4096
  have h2 : (n + 4095) % 4096 < 4096 := Nat.mod_lt _ (by norm_num)
  omega

theorem sync_sizeInv {fs : FS} (h : SizeInv fs) : SizeInv (sync fs) := by
  intro p hp
  rw [sync_inodeTable] at hp
  exact h p hp

theorem sync_remove_table (fs0 : FS) (d? : Option Nat) (nm : List Nat) :
    (sync (removeDirEntry fs0 d? nm)).inodeTable = fs0.inodeTable := by
  rw [sync_inodeTable, (removeDirEntry_state fs0 d? nm).1]

theorem addDirEntry_sizeInv {fs fs' : FS} {d? : Option Nat} {nm : List Nat}
    {i : Nat} (hInv : SizeInv fs) (h : addDirEntry fs d? nm i = some fs') :
    SizeInv fs' := by
  cases d? with
  | none =>
    unfold addDirEntry at h
    injection h with h
    rw [← h]
    exact hInv
  | some d =>
    cases htab : tableLookup fs.inodeTable d with
    | none =>
      unfold addDirEntry at h
      try dsimp only at h
      rw [htab] at h
      try dsimp only at h
      injection h with h
      rw [← h]
      exact hInv
    | some ino =>
      unfold addDirEntry at h
      try dsimp only at h
      rw [htab] at h
      try dsimp only at h
      by_cases hbc : ino.blockCount = 0
      · rw [if_pos hbc] at h
        cases halloc : allocateBlock fs.bitmap fs.totalBlocks with
        | none =>
          rw [halloc] at h
          try dsimp only at h
          exact Option.noConfusion h
        | some pr =>
          obtain ⟨nb, bm⟩ := pr
          rw [halloc] at h
          try dsimp only at h
          have hsz : ino.size = 0 := by
            have := hInv (d, ino) (tableLookup_mem htab)
            simp only [hbc] at this
            omega
          have hset : SizeInv { fs with
              bitmap := bm
              inodeTable := tableSet fs.inodeTable d
                { ino with directBlocks := ino.directBlocks.set 0 nb
                           blockCount := 1 } } := by
            intro p hp
            rcases mem_tableSet hp with hp | hp
            · exact hInv p hp
            · rw [hp]
              simp [hsz]
          split at h <;> injection h with h <;> rw [← h]
          · exact hset
          · intro p hp
            exact hset p hp
      · rw [if_neg hbc] at h
        try dsimp only at h
        split at h <;> injection h with h <;> rw [← h]
        · exact hInv
        · intro p hp
          exact hInv p hp

theorem createFile_sizeInv {fs fs' : FS} {p : List Nat} {now : Nat}
    (hInv : SizeInv fs) (h : createFile fs p now = some fs') : SizeInv fs' := by
  unfold createFile at h
  cases hsp : splitPath p with
  | none =>
    rw [hsp] at h
    injection h with h
    rw [← h]
    exact hInv
  | some pr =>
    obtain ⟨pp, nm⟩ := pr
    rw [hsp] at h
    try dsimp only at h
    cases hlk : lookupInDirectory fs (findInode fs pp) nm with
    | some j =>
      rw [hlk] at h
      try dsimp only at h
      injection h with h
      rw [← h]
      exact hInv
    | none =>
      rw [hlk] at h
      try dsimp only at h
      obtain ⟨fs2, had, hsy⟩ := Option.map_eq_some'.mp h
      have hInv1 : SizeInv { fs with
          nextInode := fs.nextInode + 1
          inodeTable := tableSet fs.inodeTable fs.nextInode (mkInode 1 now) } := by
        intro q hq
        rcases mem_tableSet hq with hq | hq
        · exact hInv q hq
        · rw [hq]
          simp [mkInode]
      rw [← hsy]
      exact sync_sizeInv (addDirEntry_sizeInv hInv1 had)

theorem createDirectory_sizeInv {fs fs' : FS} {p : List Nat} {now : Nat}
    (hInv : SizeInv fs) (h : createDirectory fs p now = some fs') :
    SizeInv fs' := by
  unfold createDirectory at h
  cases hsp : splitPath p with
  | none =>
    rw [hsp] at h
    injection h with h
    rw [← h]
    exact hInv
  | some pr =>
    obtain ⟨pp, nm⟩ := pr
    rw [hsp] at h
    try dsimp only at h
    cases hlk : lookupInDirectory fs (findInode fs pp) nm with
    | some j =>
      rw [hlk] at h
      try dsimp only at h
      injection h with h
      rw [← h]
      exact hInv
    | none =>
      rw [hlk] at h
      try dsimp only at h
      cases halloc : allocateBlock fs.bitmap fs.totalBlocks with
      | none =>
        rw [halloc] at h
        exact Option.noConfusion h
      | some pr2 =>
        obtain ⟨dirBlock, bm⟩ := pr2
        rw [halloc] at h
        try dsimp only at h
        obtain ⟨fs2, had, hsy⟩ := Option.map_eq_some'.mp h
        have hInv1 : SizeInv { fs with
            bitmap := bm
            nextInode := fs.nextInode + 1
            inodeTable := tableSet fs.inodeTable fs.nextInode
              { mkInode 2 now with
                directBlocks := (List.replicate 12 0).set 0 dirBlock
                blockCount := 1 }
            device := writeBlock fs.device dirBlock zeros4096 } := by
          intro q hq
          rcases mem_tableSet hq with hq | hq
          · exact hInv q hq
          · rw [hq]
            simp [mkInode]
        rw [← hsy]
        exact sync_sizeInv (addDirEntry_sizeInv hInv1 had)

theorem writeFile_sizeInv {fs fs' : FS} {p d : List Nat} {now : Nat}
    (hInv : SizeInv fs) (h : writeFile fs p d now = some fs') : SizeInv fs' := by
  unfold writeFile at h
  cases hf : findInode fs p with
  | none =>
    rw [hf] at h
    injection h with h
    rw [← h]
    exact hInv
  | some i =>
    rw [hf] at h
    try dsimp only at h
    cases htab : tableLookup fs.inodeTable i with
    | none =>
      rw [htab] at h
      injection h with h
      rw [← h]
      exact hInv
    | some ino =>
      rw [htab] at h
      try dsimp only at h
      by_cases hty : ino.fileType ≠ 1
      · rw [if_pos hty] at h
        injection h with h
        rw [← h]
        exact hInv
      · rw [if_neg hty] at h
        split at h
        · exact Option.noConfusion h
        · injection h with h
          rw [← h]
          apply sync_sizeInv
          intro q hq
          rcases mem_tableSet hq with hq | hq
          · exact hInv q hq
          · rw [hq]
            exact le_ceil_mul d.length

theorem deleteFile_sizeInv (fs : FS) (p : List Nat) (hInv : SizeInv fs) :
    SizeInv (deleteFile fs p) := by
  unfold deleteFile
  repeat' (first | split | dsimp only)
  all_goals try exact hInv
  intro q hq
  rw [sync_remove_table] at hq
  exact hInv q (mem_tableErase hq)

/-- C3 (amended): in every state reachable from a freshly created image by
public operations, every inode satisfies `size ≤ block_count · 4096`
(`0 ≤ block_count` holds trivially over `Nat`).  The bound
`block_count ≤ DIRECT_BLOCKS` of the original claim is false:
`write_file` stores `block_count = ceil(len/4096)` without capping it at 12
(`C3_counterexample`). -/
theorem C3_size_le_blockCount (fs : FS) (h : Reach fs) : SizeInv fs := by
  induction h with
  | create sizeMB now fs hc =>
    obtain ⟨-, root, htab, hsz, hbc, -⟩ := createFS_spec hc
    intro p hp
    rw [htab] at hp
    simp only [List.mem_singleton] at hp
    rw [hp]
    simp [hsz, hbc]
  | step fs op fs' _hreach happ ih =>
    cases op with
    | opCreateFile p now => exact createFile_sizeInv ih happ
    | opCreateDirectory p now => exact createDirectory_sizeInv ih happ
    | opWriteFile p d now => exact writeFile_sizeInv ih happ
    | opDeleteFile p =>
      injection happ with happ
      rw [← happ]
      exact deleteFile_sizeInv fs p ih

/-- Witness for C3: the fresh 1 MiB image is reachable and satisfies the
invariant. -/
theorem C3_witness : SizeInv fs1 :=
  C3_size_le_blockCount fs1 (Reach.create 1 0 fs1 rfl)

/-! ## C1: allocator bit lemmas -/

theorem getD_set_ne (l : List Nat) {i j : Nat} (v d : Nat) (h : i ≠ j) :
    (l.set i v).getD j d = l.getD j d := by
  simp [List.getD_eq_getElem?_getD, List.getElem?_set_ne h]

theorem getD_set_self (l : List Nat) {i : Nat} (v d : Nat) (h : i < l.length) :
    (l.set i v).getD i d = v := by
  simp [List.getD_eq_getElem?_getD, List.getElem?_set_self, h]

theorem setAllocated_length (bm : List Nat) (n : Nat) (v : Bool) :
    (setAllocated bm n v).length = bm.length := by
  unfold setAllocated
  cases v <;> simp

theorem div_mod_eq_of_ne {j n : Nat} (hdiv : j / 8 = n / 8) (hne : j ≠ n) :
    j % 8 ≠ n % 8 := by
  intro hmod
  have hj := Nat.div_add_mod j 8
  have hn := Nat.div_add_mod n 8
  omega

theorem isAllocated_set_true_self {bm : List Nat} {n : Nat}
    (h : n / 8 < bm.length) : isAllocated (setAllocated bm n true) n = true := by
  unfold isAllocated setAllocated
  simp only [if_pos rfl, getD_set_self _ _ _ h, Nat.one_shiftLeft, if_true]
  simp [Nat.testBit_or, Nat.testBit_two_pow_self]

theorem testBit_255 {m : Nat} (h : m < 8) : Nat.testBit 255 m = true := by
  have h255 : (255 : Nat) = 2 ^ 8 - 1 := by norm_num
  rw [h255, Nat.testBit_two_pow_sub_one]
  simpa using h

theorem isAllocated_set_false_self (bm : List Nat) (n : Nat) :
    isAllocated (setAllocated bm n false) n = false := by
  unfold isAllocated setAllocated
  simp only [Bool.false_eq_true, if_false]
  by_cases h : n / 8 < bm.length
  · rw [getD_set_self _ _ _ h]
    have h8 : n % 8 < 8 := Nat.mod_lt _ (by norm_num)
    simp [Nat.one_shiftLeft, Nat.testBit_and, Nat.testBit_xor, testBit_255 h8,
      Nat.testBit_two_pow_self]
  · rw [List.set_eq_of_length_le (Nat.le_of_not_lt h)]
    rw [List.getD_eq_getElem?_getD, List.getElem?_eq_none (Nat.le_of_not_lt h)]
    simp

theorem isAllocated_set_ne {bm : List Nat} {n j : Nat} (v : Bool) (h : j ≠ n) :
    isAllocated (setAllocated bm n v) j = isAllocated bm j := by
  unfold isAllocated setAllocated
  by_cases hdiv : j / 8 = n / 8
  · have hmod : j % 8 ≠ n % 8 := div_mod_eq_of_ne hdiv h
    by_cases hlen : n / 8 < bm.length
    · cases v
      · simp only [Bool.false_eq_true, if_false]
        rw [hdiv, getD_set_self _ _ _ hlen]
        have h8 : j % 8 < 8 := Nat.mod_lt _ (by norm_num)
        simp [Nat.one_shiftLeft, Nat.testBit_and, Nat.testBit_xor,
          testBit_255 h8, Nat.testBit_two_pow, Ne.symm hmod]
      · simp only [if_true]
        rw [hdiv, getD_set_self _ _ _ hlen]
        simp only [Nat.one_shiftLeft, Nat.testBit_or, Nat.testBit_two_pow]
        simp [hdiv, Ne.symm hmod]
    · cases v <;>
        simp only [Bool.false_eq_true, if_false, if_true] <;>
        rw [List.set_eq_of_length_le (Nat.le_of_not_lt hlen)]
  · cases v <;>
      simp only [Bool.false_eq_true, if_false, if_true] <;>
      rw [getD_set_ne _ _ _ (fun he => hdiv he.symm)]

theorem allocateBlock_spec {bm : List Nat} {total b : Nat} {bm' : List Nat}
    (h : allocateBlock bm total = some (b, bm')) :
    b < total ∧ isAllocated bm b = false ∧ bm' = setAllocated bm b true := by
  unfold allocateBlock at h
  cases hf : (List.range total).find? (fun i => !isAllocated bm i) with
  | none => rw [hf] at h; exact Option.noConfusion h
  | some c =>
    rw [hf] at h
    injection h with h
    injection h with h1 h2
    subst h1
    have hp := List.find?_some hf
    have hm := List.mem_of_find?_eq_some hf
    refine ⟨List.mem_range.mp hm, by simpa using hp, h2.symm⟩

theorem allocateBlock_isSome {bm : List Nat} {total : Nat}
    (h : 0 < freeCount bm total) :
    ∃ b bm', allocateBlock bm total = some (b, bm') := by
  have := List.countP_pos_iff.mp h
  obtain ⟨a, ha, hpa⟩ := this
  have : ((List.range total).find? (fun i => !isAllocated bm i)).isSome := by
    rw [List.find?_isSome]
    exact ⟨a, ha, hpa⟩
  obtain ⟨c, hc⟩ := Option.isSome_iff_exists.mp this
  exact ⟨c, setAllocated bm c true, by unfold allocateBlock; rw [hc]⟩

theorem countP_flip_one {l : List Nat} {f g : Nat → Bool} {b : Nat}
    (hnd : l.Nodup) (hb : b ∈ l) (hf : f b = true) (hg : g b = false)
    (hsame : ∀ x ∈ l, x ≠ b → g x = f x) :
    l.countP g + 1 = l.countP f := by
  induction l with
  | nil => cases hb
  | cons a tl ih =>
    have hnd' := (List.nodup_cons.mp hnd).2
    have hanotin := (List.nodup_cons.mp hnd).1
    rcases List.mem_cons.mp hb with rfl | hbtl
    · have hgcount : tl.countP g = tl.countP f := by
        apply List.countP_congr
        intro x hx
        have he := hsame x (List.mem_cons_of_mem _ hx) (fun he => hanotin (he ▸ hx))
        rw [he]
      simp [List.countP_cons, hf, hg, hgcount]
    · have hab : a ≠ b := fun he => hanotin (he ▸ hbtl)
      have hga : g a = f a := hsame a (List.mem_cons_self _ _) hab
      have := ih hnd' hbtl (fun x hx hxb => hsame x (List.mem_cons_of_mem _ hx) hxb)
      simp only [List.countP_cons, hga]
      omega

theorem freeCount_alloc {bm : List Nat} {total b : Nat}
    (hb : b < total) (hlen : b / 8 < bm.length)
    (hfree : isAllocated bm b = false) :
    freeCount (setAllocated bm b true) total + 1 = freeCount bm total := by
  unfold freeCount
  apply countP_flip_one (List.nodup_range total) (List.mem_range.mpr hb)
  · simp [hfree]
  · simp [isAllocated_set_true_self hlen]
  · intro x _ hxb
    simp [isAllocated_set_ne true hxb]

theorem freeCount_free_mono (bm : List Nat) (total b : Nat) :
    freeCount bm total ≤ freeCount (setAllocated bm b false) total := by
  unfold freeCount
  apply List.countP_mono_left
  intro a _ ha
  by_cases hab : a = b
  · subst hab
    simp [isAllocated_set_false_self]
  · simpa [isAllocated_set_ne false hab] using ha

theorem freeCount_freeBlock_mono (bm : List Nat) (total n : Nat) :
    freeCount bm total ≤ freeCount (freeBlock bm total n) total := by
  unfold freeBlock
  split
  · exact freeCount_free_mono bm total n
  · exact Nat.le_refl _

theorem isAllocated_freeBlock_ne {bm : List Nat} {total n j : Nat} (h : j ≠ n) :
    isAllocated (freeBlock bm total n) j = isAllocated bm j := by
  unfold freeBlock
  split
  · exact isAllocated_set_ne false h
  · rfl

theorem freeBlock_length (bm : List Nat) (total n : Nat) :
    (freeBlock bm total n).length = bm.length := by
  unfold freeBlock
  split
  · exact setAllocated_length bm n false
  · rfl

/-! ## C1: free-phase, table and sync lemmas -/

theorem freePhase_spec (total : Nat) (S : Nat → Prop) (js : List Nat) :
    ∀ bm db : List Nat,
    (∀ idx ∈ js, idx < 12 → db.getD idx 0 ≠ 0 → ¬ S (db.getD idx 0)) →
    (∀ j, S j → isAllocated bm j = true) →
    (∀ j, S j → isAllocated (js.foldl
      (fun (acc : List Nat × List Nat) idx =>
        if idx < 12 ∧ acc.2.getD idx 0 ≠ 0 then
          (freeBlock acc.1 total (acc.2.getD idx 0), acc.2.set idx 0)
        else acc) (bm, db)).1 j = true) ∧
    (js.foldl
      (fun (acc : List Nat × List Nat) idx =>
        if idx < 12 ∧ acc.2.getD idx 0 ≠ 0 then
          (freeBlock acc.1 total (acc.2.getD idx 0), acc.2.set idx 0)
        else acc) (bm, db)).1.length = bm.length ∧
    freeCount bm total ≤ freeCount (js.foldl
      (fun (acc : List Nat × List Nat) idx =>
        if idx < 12 ∧ acc.2.getD idx 0 ≠ 0 then
          (freeBlock acc.1 total (acc.2.getD idx 0), acc.2.set idx 0)
        else acc) (bm, db)).1 total ∧
    (js.foldl
      (fun (acc : List Nat × List Nat) idx =>
        if idx < 12 ∧ acc.2.getD idx 0 ≠ 0 then
          (freeBlock acc.1 total (acc.2.getD idx 0), acc.2.set idx 0)
        else acc) (bm, db)).2.length = db.length := by
  induction js with
  | nil =>
    intro bm db _ hbits
    exact ⟨hbits, rfl, Nat.le_refl _, rfl⟩
  | cons idx rest ih =>
    intro bm db hprot hbits
    simp only [List.foldl_cons]
    by_cases hguard : idx < 12 ∧ db.getD idx 0 ≠ 0
    · rw [if_pos hguard]
      have hnS : ¬ S (db.getD idx 0) :=
        hprot idx (List.mem_cons_self _ _) hguard.1 hguard.2
      have hprot' : ∀ idx' ∈ rest, idx' < 12 → (db.set idx 0).getD idx' 0 ≠ 0 →
          ¬ S ((db.set idx 0).getD idx' 0) := by
        intro idx' hmem h12 hne
        by_cases hii : idx' = idx
        · subst hii
          by_cases hlen : idx' < db.length
          · rw [getD_set_self _ _ _ hlen] at hne
            exact absurd rfl hne
          · rw [List.set_eq_of_length_le (Nat.le_of_not_lt hlen)] at hne ⊢
            exact hprot idx' (List.mem_cons_self _ _) h12 hne
        · rw [getD_set_ne _ _ _ (fun he => hii he.symm)] at hne ⊢
          exact hprot idx' (List.mem_cons_of_mem _ hmem) h12 hne
      have hbits' : ∀ j, S j →
          isAllocated (freeBlock bm total (db.getD idx 0)) j = true := by
        intro j hS
        have hj : j ≠ db.getD idx 0 := fun he => hnS (he ▸ hS)
        rw [isAllocated_freeBlock_ne hj]
        exact hbits j hS
      obtain ⟨h1, h2, h3, h4⟩ := ih (freeBlock bm total (db.getD idx 0))
        (db.set idx 0) hprot' hbits'
      refine ⟨h1, ?_, ?_, ?_⟩
      · rw [h2, freeBlock_length]
      · exact Nat.le_trans (freeCount_freeBlock_mono bm total _) h3
      · rw [h4, List.length_set]
    · rw [if_neg hguard]
      exact ih bm db (fun idx' hmem => hprot idx' (List.mem_cons_of_mem _ hmem))
        hbits

theorem tableLookup_tableSet_self (t : List (Nat × Inode)) (k : Nat) (v : Inode) :
    tableLookup (tableSet t k v) k = some v := by
  unfold tableSet
  split
  · rename_i hs
    induction t with
    | nil => simp [tableLookup] at hs
    | cons p rest ih =>
      by_cases hp : p.1 = k
      · simp only [List.map_cons, if_pos hp]
        simp [tableLookup]
      · simp only [List.map_cons, if_neg hp]
        simp only [tableLookup, hp, if_false]
        simp only [tableLookup, hp, if_false] at hs
        exact ih hs
  · induction t with
    | nil => simp [tableLookup]
    | cons p rest ih =>
      rename_i hs
      by_cases hp : p.1 = k
      · exfalso
        apply hs
        simp [tableLookup, hp]
      · simp only [List.cons_append, tableLookup, hp, if_false]
        apply ih
        intro hs2
        apply hs
        simp only [tableLookup, hp, if_false]
        exact hs2

theorem tableLookup_mapReplace_ne (t : List (Nat × Inode)) {k j : Nat}
    (v : Inode) (h : j ≠ k) :
    tableLookup (t.map (fun p => if p.1 = k then (k, v) else p)) j =
      tableLookup t j := by
  induction t with
  | nil => rfl
  | cons p rest ih =>
    by_cases hp : p.1 = k
    · have hk : ¬ (k = j) := fun he => h he.symm
      have hpj : ¬ (p.1 = j) := by
        rw [hp]
        exact hk
      simp only [List.map_cons, if_pos hp]
      simp only [tableLookup, hk, hpj, if_false]
      exact ih
    · simp only [List.map_cons, if_neg hp]
      by_cases hpj : p.1 = j <;> simp [tableLookup, hpj, ih]

theorem tableLookup_append_single_ne (t : List (Nat × Inode)) {k j : Nat}
    (v : Inode) (h : j ≠ k) :
    tableLookup (t ++ [(k, v)]) j = tableLookup t j := by
  induction t with
  | nil =>
    have hk : ¬ (k = j) := fun he => h he.symm
    simp [tableLookup, hk]
  | cons p rest ih =>
    by_cases hpj : p.1 = j <;> simp [tableLookup, hpj, ih]

theorem tableLookup_tableSet_ne (t : List (Nat × Inode)) {k j : Nat} (v : Inode)
    (h : j ≠ k) : tableLookup (tableSet t k v) j = tableLookup t j := by
  unfold tableSet
  split
  · exact tableLookup_mapReplace_ne t v h
  · exact tableLookup_append_single_ne t v h

theorem writeInodeTable_fold_dev {b : Nat} (hb : b ≠ 2)
    (t : List (Nat × Inode)) :
    ∀ acc : List Nat × Nat × (Nat → List Nat),
    ((t.foldl inodeTableStep acc).2.2) b = acc.2.2 b := by
  induction t with
  | nil => intro acc; rfl
  | cons p rest ih =>
    intro acc
    rw [List.foldl_cons]
    rw [ih (inodeTableStep acc p)]
    unfold inodeTableStep
    obtain ⟨block, off, dev⟩ := acc
    dsimp only
    split
    · simp [writeBlock, hb]
    · rfl

theorem writeInodeTableDev_ne (dev : Nat → List Nat) (t : List (Nat × Inode))
    {b : Nat} (hb : b ≠ 2) : writeInodeTableDev dev t b = dev b := by
  unfold writeInodeTableDev
  try dsimp only
  split
  · show writeBlock _ 2 _ b = dev b
    unfold writeBlock
    rw [if_neg hb]
    exact writeInodeTable_fold_dev hb t _
  · exact writeInodeTable_fold_dev hb t _

theorem sync_device_ne (fs : FS) {b : Nat} (h0 : b ≠ 0) (h1 : b ≠ 1)
    (h2 : b ≠ 2) : (sync fs).device b = fs.device b := by
  unfold sync
  try dsimp only
  rw [writeInodeTableDev_ne _ _ h2]
  unfold writeBlock
  rw [if_neg h1, if_neg h0]

theorem sync_rootInode (fs : FS) : (sync fs).sb.rootInode = fs.sb.rootInode := rfl

theorem getD_mem_usedBlocks {ino : Inode} {j : Nat} (hj : j < ino.blockCount)
    (hj12 : j < 12) (hne : ino.directBlocks.getD j 0 ≠ 0) :
    ino.directBlocks.getD j 0 ∈ usedBlocks ino := by
  have hjlen : j < ino.directBlocks.length := by
    by_contra hge
    rw [List.getD_eq_getElem?_getD,
      List.getElem?_eq_none (Nat.le_of_not_lt hge)] at hne
    exact hne rfl
  unfold usedBlocks
  apply List.mem_filter.mpr
  refine ⟨?_, by simpa using hne⟩
  have hjtake : j < (ino.directBlocks.take (min ino.blockCount 12)).length := by
    rw [List.length_take]
    omega
  have hget : (ino.directBlocks.take (min ino.blockCount 12))[j] =
      ino.directBlocks[j] := List.getElem_take ino.directBlocks
  have hgd : ino.directBlocks.getD j 0 = ino.directBlocks[j] :=
    List.getD_eq_getElem _ _ hjlen
  rw [hgd, ← hget]
  exact List.getElem_mem hjtake

/-! ## C1: the allocate-and-write loop -/

theorem getD_append_len (l : List Nat) (x d : Nat) :
    (l ++ [x]).getD l.length d = x := by
  rw [List.getD_append_right l [x] d l.length (Nat.le_refl _)]
  simp

theorem getD_mem (l : List Nat) {m : Nat} (d : Nat) (h : m < l.length) :
    l.getD m d ∈ l := by
  rw [List.getD_eq_getElem _ _ h]
  exact List.getElem_mem h

theorem mul_lt_of_lt_ceil {len j : Nat} (h : j < (len + 4095) / 4096) :
    4096 * j < len := by
  have h1 := Nat.div_add_mod (len + 4095) 4096
  have h2 : (len + 4095) % 4096 < 4096 := Nat.mod_lt _ (by norm_num)
  omega

theorem len_le_mul_ceil (len : Nat) : len ≤ 4096 * ((len + 4095) / 4096) := by
  have := le_ceil_mul len
  omega

theorem ceil_le_12 {len : Nat} (h : len ≤ 49152) : (len + 4095) / 4096 ≤ 12 := by
  calc (len + 4095) / 4096 ≤ 53247 / 4096 := Nat.div_le_div_right (by omega)
    _ = 12 := by norm_num

theorem writeLoop_spec (total : Nat) (data : List Nat) (s0 : WState)
    (hw1 : total ≤ 8 * s0.bitmap.length) (hw0 : s0.written = 0)
    (hdb : 12 ≤ s0.db.length) :
    ∀ j, j ≤ min ((data.length + 4095) / 4096) 12 →
      j ≤ freeCount s0.bitmap total →
      ∃ s bs, (List.range j).foldlM (writeStep total data) s0 = some s ∧
        LoopInv total data s0 j s bs := by
  intro j
  induction j with
  | zero =>
    intro _ _
    refine ⟨s0, [], by simp, ?_⟩
    exact
      { written := by simpa using hw0
        bmlen := rfl
        dblen := rfl
        count := rfl
        mono := fun x hx => hx
        bslen := rfl
        bsmem := fun x hx => absurd hx (List.not_mem_nil x)
        dbgetD := fun m hm => absurd hm (Nat.not_lt_zero m)
        devOther := fun b _ => rfl
        devChunk := fun m hm => absurd hm (Nat.not_lt_zero m) }
  | succ j ih =>
    intro hjk hjfree
    obtain ⟨s, bs, hfold, inv⟩ := ih (by omega) (by omega)
    have hfreePos : 0 < freeCount s.bitmap total := by
      have := inv.count
      omega
    obtain ⟨b, bm', halloc⟩ := allocateBlock_isSome hfreePos
    obtain ⟨hblt, hbfree, hbm'⟩ := allocateBlock_spec halloc
    have hb8 : b / 8 < s.bitmap.length := by
      rw [Nat.div_lt_iff_lt_mul (by norm_num : (0:Nat) < 8)]
      have := inv.bmlen
      omega
    have hjlt : j < (data.length + 4095) / 4096 := by omega
    have hwr : s.written = 4096 * j := by
      have := mul_lt_of_lt_ceil hjlt
      have hw := inv.written
      omega
    have hbs0 : isAllocated s0.bitmap b = false := by
      by_contra hb
      have := inv.mono b (by revert hb; cases isAllocated s0.bitmap b <;> simp)
      rw [this] at hbfree
      exact Bool.noConfusion hbfree
    have hbnotbs : b ∉ bs := by
      intro hmem
      have := (inv.bsmem b hmem).2.2
      rw [this] at hbfree
      exact Bool.noConfusion hbfree
    refine ⟨{ bitmap := bm'
              device := writeBlock s.device b
                ((data.drop s.written).take (min (data.length - s.written) 4096) ++
                  List.replicate (4096 - min (data.length - s.written) 4096) 0)
              db := s.db.set j b
              written := s.written + min (data.length - s.written) 4096 },
            bs ++ [b], ?_, ?_⟩
    · rw [List.range_succ, List.foldlM_append, hfold]
      show (List.foldlM (writeStep total data) s [j]) = _
      show (writeStep total data s j) >>= _ = _
      unfold writeStep
      rw [halloc]
      rfl
    · constructor
      · -- written
        dsimp only
        have h1 := mul_lt_of_lt_ceil hjlt
        omega
      · -- bmlen
        dsimp only
        rw [hbm', setAllocated_length]
        exact inv.bmlen
      · -- dblen
        dsimp only
        rw [List.length_set]
        exact inv.dblen
      · -- count
        dsimp only
        rw [hbm']
        have hdec := freeCount_alloc hblt hb8 hbfree
        have := inv.count
        omega
      · -- mono
        dsimp only
        intro x hx
        rw [hbm']
        by_cases hxb : x = b
        · subst hxb
          exact isAllocated_set_true_self hb8
        · rw [isAllocated_set_ne true hxb]
          exact inv.mono x hx
      · -- bslen
        dsimp only
        rw [List.length_append, inv.bslen]
        rfl
      · -- bsmem
        dsimp only
        intro x hx
        rcases List.mem_append.mp hx with hx | hx
        · obtain ⟨hx1, hx2, hx3⟩ := inv.bsmem x hx
          have hxb : x ≠ b := by
            intro he
            rw [he, hbfree] at hx3
            exact Bool.noConfusion hx3
          rw [hbm']
          exact ⟨hx1, hx2, by rw [isAllocated_set_ne true hxb]; exact hx3⟩
        · simp only [List.mem_singleton] at hx
          subst hx
          rw [hbm']
          exact ⟨hblt, hbs0, isAllocated_set_true_self hb8⟩
      · -- dbgetD
        dsimp only
        intro m hm
        by_cases hmj : m = j
        · subst hmj
          rw [getD_set_self _ _ _ (by have := inv.dblen; omega)]
          rw [← inv.bslen, getD_append_len]
        · have hmlt : m < j := by omega
          rw [getD_set_ne _ _ _ (fun he => hmj he.symm)]
          rw [inv.dbgetD m hmlt]
          rw [List.getD_append _ _ _ _ (by rw [inv.bslen]; exact hmlt)]
      · -- devOther
        dsimp only
        intro x hx
        have hxb : x ≠ b := fun he => hx (he ▸ List.mem_append_right bs (by simp))
        have hxbs : x ∉ bs := fun hm => hx (List.mem_append_left _ hm)
        unfold writeBlock
        rw [if_neg hxb]
        exact inv.devOther x hxbs
      · -- devChunk
        dsimp only
        intro m hm
        by_cases hmj : m = j
        · subst hmj
          rw [← inv.bslen, getD_append_len]
          unfold writeBlock
          rw [if_pos rfl, hwr, inv.bslen]
        · have hmlt : m < j := by omega
          rw [List.getD_append _ _ _ _ (by rw [inv.bslen]; exact hmlt)]
          have hbsm : bs.getD m 0 ∈ bs := getD_mem bs 0 (by rw [inv.bslen]; exact hmlt)
          have hne : bs.getD m 0 ≠ b := by
            intro he
            have := (inv.bsmem _ hbsm).2.2
            rw [he, hbfree] at this
            exact Bool.noConfusion this
          unfold writeBlock
          rw [if_neg hne]
          exact inv.devChunk m hmlt

/-! ## C1: the read-back loop -/

theorem readLoop_spec (dev : Nat → List Nat) (db data bs : List Nat)
    (hlen : data.length ≤ 49152)
    (hdb : ∀ m, m < (data.length + 4095) / 4096 → db.getD m 0 = bs.getD m 0)
    (hbs : ∀ m, m < (data.length + 4095) / 4096 → 10 ≤ bs.getD m 0)
    (hdev : ∀ m, m < (data.length + 4095) / 4096 → dev (bs.getD m 0) =
      (data.drop (4096 * m)).take (min (data.length - 4096 * m) 4096) ++
        List.replicate (4096 - min (data.length - 4096 * m) 4096) 0) :
    ∀ cnt j, j + cnt = (data.length + 4095) / 4096 →
      readLoop dev db (List.range' j cnt) (data.length - 4096 * j) =
        data.drop (4096 * j) := by
  intro cnt
  induction cnt with
  | zero =>
    intro j hj
    have hle : data.length ≤ 4096 * j := by
      have := len_le_mul_ceil data.length
      omega
    rw [List.drop_eq_nil_of_le (by omega)]
    rfl
  | succ cnt ih =>
    intro j hj
    have hjlt : j < (data.length + 4095) / 4096 := by omega
    have hj12 : j < 12 := Nat.lt_of_lt_of_le hjlt (ceil_le_12 hlen)
    have hmul : 4096 * j < data.length := mul_lt_of_lt_ceil hjlt
    rw [List.range'_succ]
    unfold readLoop
    rw [if_neg (by omega)]
    have hb10 := hbs j hjlt
    rw [hdb j hjlt]
    rw [if_neg (by omega)]
    have hchunklen : ((data.drop (4096 * j)).take
        (min (data.length - 4096 * j) 4096)).length =
        min (data.length - 4096 * j) 4096 := by
      rw [List.length_take, List.length_drop]
      omega
    rw [hdev j hjlt]
    dsimp only
    have htake : (((data.drop (4096 * j)).take (min (data.length - 4096 * j) 4096) ++
        List.replicate (4096 - min (data.length - 4096 * j) 4096) 0).take
          (min (data.length - 4096 * j) 4096)) =
        (data.drop (4096 * j)).take (min (data.length - 4096 * j) 4096) := by
      exact List.take_left' hchunklen
    rw [htake]
    by_cases hrem : data.length - 4096 * j - min (data.length - 4096 * j) 4096 = 0
    · rw [if_pos hrem]
      have hsmall : data.length - 4096 * j ≤ 4096 := by omega
      have hmin : min (data.length - 4096 * j) 4096 = data.length - 4096 * j := by
        omega
      rw [hmin]
      rw [List.take_of_length_le (by rw [List.length_drop])]
    · rw [if_neg hrem]
      have hbig : 4096 < data.length - 4096 * j := by omega
      have hmin : min (data.length - 4096 * j) 4096 = 4096 := by omega
      have hrem' : data.length - 4096 * j - min (data.length - 4096 * j) 4096 =
          data.length - 4096 * (j + 1) := by omega
      rw [hrem', ih (j + 1) (by omega)]
      rw [hmin]
      have hidx : 4096 * j + 4096 = 4096 * (j + 1) := by ring
      have hdropdrop : data.drop (4096 * (j + 1)) =
          (data.drop (4096 * j)).drop 4096 := by
        rw [List.drop_drop, hidx]
      rw [hdropdrop, List.take_append_drop]

/-! ## C1: resolution is preserved -/

theorem lookLoop_congr {dev dev' : Nat → List Nat} (db nm : List Nat)
    (js : List Nat)
    (h : ∀ j ∈ js, ¬ j ≥ 12 → db.getD j 0 ≠ 0 →
      dev' (db.getD j 0) = dev (db.getD j 0)) :
    lookLoop dev' db nm js = lookLoop dev db nm js := by
  induction js with
  | nil => rfl
  | cons j rest ih =>
    unfold lookLoop
    by_cases hj : j ≥ 12
    · rw [if_pos hj, if_pos hj]
    · rw [if_neg hj, if_neg hj]
      have ih' := ih (fun j' hm => h j' (List.mem_cons_of_mem _ hm))
      by_cases hb : db.getD j 0 = 0
      · rw [if_pos hb, if_pos hb]
        exact ih'
      · rw [if_neg hb, if_neg hb]
        rw [h j (List.mem_cons_self _ _) hj hb]
        cases hfind : (scanDir (dev (db.getD j 0))).1.find?
            (fun e => e.name = nm) with
        | some e => rfl
        | none => exact ih'

theorem lookup_congr {fs fs' : FS} (htab : TablePreserved fs fs')
    (cur : Nat) (nm : List Nat) (r : Nat)
    (h : lookupInDirectory fs (some cur) nm = some r) :
    lookupInDirectory fs' (some cur) nm = some r := by
  unfold lookupInDirectory at h ⊢
  dsimp only at h ⊢
  cases htc : tableLookup fs.inodeTable cur with
  | none =>
    rw [htc] at h
    exact Option.noConfusion h
  | some dino =>
    rw [htc] at h
    try dsimp only at h
    by_cases hty : dino.fileType ≠ 2
    · rw [if_pos hty] at h
      exact Option.noConfusion h
    · rw [if_neg hty] at h
      have hty2 : dino.fileType = 2 := by omega
      obtain ⟨htc', hdev⟩ := htab cur dino htc hty2
      rw [htc']
      try dsimp only
      rw [if_neg hty]
      rw [lookLoop_congr dino.directBlocks nm (List.range dino.blockCount) ?_]
      · exact h
      · intro j hm hj12 hne
        exact hdev _ (getD_mem_usedBlocks (List.mem_range.mp hm) (by omega) hne)

theorem walk_preserved {fs fs' : FS} (htab : TablePreserved fs fs') :
    ∀ (parts : List (List Nat)) (cur r : Nat),
      walkParts fs parts cur = some r → walkParts fs' parts cur = some r := by
  intro parts
  induction parts with
  | nil =>
    intro cur r h
    exact h
  | cons part rest ih =>
    intro cur r h
    unfold walkParts at h ⊢
    cases hlk : lookupInDirectory fs (some cur) part with
    | none =>
      rw [hlk] at h
      exact Option.noConfusion h
    | some nxt =>
      rw [hlk] at h
      try dsimp only at h
      rw [lookup_congr htab cur part nxt hlk]
      try dsimp only
      exact ih nxt r h

theorem findInode_preserved {fs fs' : FS}
    (hroot : fs'.sb.rootInode = fs.sb.rootInode)
    (htab : TablePreserved fs fs') {p : List Nat} {i : Nat}
    (h : findInode fs p = some i) : findInode fs' p = some i := by
  unfold findInode at h ⊢
  by_cases hp : p = [47]
  · rw [if_pos hp] at h ⊢
    rw [hroot]
    exact h
  · rw [if_neg hp] at h ⊢
    rw [hroot]
    exact walk_preserved htab _ _ _ h

/-- `read_file` returns `data` whenever resolution finds a REGULAR inode of
size `data.length` whose `block_count` direct blocks carry the zero-padded
chunks of `data`. -/
theorem readFile_spec (fs' : FS) (p data bs : List Nat) (i : Nat)
    (ino' : Inode)
    (hfind : findInode fs' p = some i)
    (htab : tableLookup fs'.inodeTable i = some ino')
    (hty : ino'.fileType = 1)
    (hsize : ino'.size = data.length)
    (hbc : ino'.blockCount = (data.length + 4095) / 4096)
    (hlen : data.length ≤ 49152)
    (hdb : ∀ m, m < (data.length + 4095) / 4096 →
      ino'.directBlocks.getD m 0 = bs.getD m 0)
    (hbs : ∀ m, m < (data.length + 4095) / 4096 → 10 ≤ bs.getD m 0)
    (hdev : ∀ m, m < (data.length + 4095) / 4096 →
      fs'.device (bs.getD m 0) =
      (data.drop (4096 * m)).take (min (data.length - 4096 * m) 4096) ++
        List.replicate (4096 - min (data.length - 4096 * m) 4096) 0) :
    readFile fs' p = data := by
  unfold readFile
  rw [hfind]
  try dsimp only
  rw [htab]
  try dsimp only
  rw [if_neg (fun hne => hne hty)]
  rw [hsize, hbc]
  have h0 := readLoop_spec fs'.device ino'.directBlocks data bs hlen hdb hbs
    hdev ((data.length + 4095) / 4096) 0 (by omega)
  rw [List.range_eq_range']
  simpa using h0

/-! ## C1: success shape of `write_file` -/

/-- When resolution finds a REGULAR inode and `min(ceil(len/4096), 12)` blocks
are free after the free phase, `write_file` takes its success branch and the
stored inode gets the uncapped `block_count = ceil(len/4096)`. -/
theorem writeFile_success (fs : FS) (p data : List Nat) (now i : Nat)
    (ino : Inode)
    (hfind : findInode fs p = some i)
    (htab : tableLookup fs.inodeTable i = some ino)
    (hreg : ino.fileType = 1)
    (hcov : fs.totalBlocks ≤ 8 * fs.bitmap.length)
    (hdb12 : ino.directBlocks.length = 12)
    (hfree : min ((data.length + 4095) / 4096) 12 ≤
      freeCount fs.bitmap fs.totalBlocks) :
    ∃ s bs,
      writeFile fs p data now = some (sync { fs with
        bitmap := s.bitmap
        device := s.device
        inodeTable := tableSet fs.inodeTable i { ino with
          size := data.length
          blockCount := (data.length + 4095) / 4096
          directBlocks := s.db
          modified := now } }) ∧
      LoopInv fs.totalBlocks data
        { bitmap := ((List.range ino.blockCount).foldl
            (fun (acc : List Nat × List Nat) idx =>
              if idx < 12 ∧ acc.2.getD idx 0 ≠ 0 then
                (freeBlock acc.1 fs.totalBlocks (acc.2.getD idx 0),
                  acc.2.set idx 0)
              else acc)
            (fs.bitmap, ino.directBlocks)).1
          device := fs.device
          db := ((List.range ino.blockCount).foldl
            (fun (acc : List Nat × List Nat) idx =>
              if idx < 12 ∧ acc.2.getD idx 0 ≠ 0 then
                (freeBlock acc.1 fs.totalBlocks (acc.2.getD idx 0),
                  acc.2.set idx 0)
              else acc)
            (fs.bitmap, ino.directBlocks)).2
          written := 0 }
        (min ((data.length + 4095) / 4096) 12) s bs := by
  obtain ⟨-, hflen, hfcnt, hdblen⟩ :=
    freePhase_spec fs.totalBlocks (fun _ => False) (List.range ino.blockCount)
      fs.bitmap ino.directBlocks (fun _ _ _ _ hF => hF) (fun _ hF => hF.elim)
  obtain ⟨s, bs, hfold, inv⟩ := writeLoop_spec fs.totalBlocks data
    { bitmap := ((List.range ino.blockCount).foldl
        (fun (acc : List Nat × List Nat) idx =>
          if idx < 12 ∧ acc.2.getD idx 0 ≠ 0 then
            (freeBlock acc.1 fs.totalBlocks (acc.2.getD idx 0), acc.2.set idx 0)
          else acc)
        (fs.bitmap, ino.directBlocks)).1
      device := fs.device
      db := ((List.range ino.blockCount).foldl
        (fun (acc : List Nat × List Nat) idx =>
          if idx < 12 ∧ acc.2.getD idx 0 ≠ 0 then
            (freeBlock acc.1 fs.totalBlocks (acc.2.getD idx 0), acc.2.set idx 0)
          else acc)
        (fs.bitmap, ino.directBlocks)).2
      written := 0 }
    (by dsimp only; omega) rfl (by dsimp only; omega)
    (min ((data.length + 4095) / 4096) 12) (Nat.le_refl _)
    (by dsimp only; omega)
  refine ⟨s, bs, ?_, inv⟩
  unfold writeFile
  rw [hfind]
  try dsimp only
  rw [htab]
  try dsimp only
  rw [if_neg (fun hne => hne hreg)]
  try dsimp only
  rw [hfold]

/-- C1: on a well-formed mounted state, for every path that resolves to a
REGULAR inode and every `data` of at most 48 KiB, `write_file` succeeds
whenever `ceil(len/4096)` blocks are free, and a subsequent `read_file` of the
same path returns exactly `data`. -/
theorem C1_write_then_read (fs : FS) (p data : List Nat) (now i : Nat)
    (ino : Inode)
    (hfind : findInode fs p = some i)
    (htab : tableLookup fs.inodeTable i = some ino)
    (hreg : ino.fileType = 1)
    (hlen : data.length ≤ 49152)
    (hfree : (data.length + 4095) / 4096 ≤ freeCount fs.bitmap fs.totalBlocks)
    (hwf : Wf fs ino) :
    ∃ fs', writeFile fs p data now = some fs' ∧ readFile fs' p = data := by
  have hmin : min ((data.length + 4095) / 4096) 12 =
      (data.length + 4095) / 4096 := Nat.min_eq_left (ceil_le_12 hlen)
  obtain ⟨s, bs, hw, inv⟩ := writeFile_success fs p data now i ino hfind htab
    hreg hwf.bitmapCovers hwf.targetDbLen (by omega)
  rw [hmin] at inv
  obtain ⟨hSpres, -, -, -⟩ :=
    freePhase_spec fs.totalBlocks
      (fun b => isAllocated fs.bitmap b = true ∧ b ∉ usedBlocks ino)
      (List.range ino.blockCount) fs.bitmap ino.directBlocks
      (fun idx hmem h12 hne hS =>
        hS.2 (getD_mem_usedBlocks (List.mem_range.mp hmem) h12 hne))
      (fun _ hS => hS.1)
  have hb10 : ∀ m, m < (data.length + 4095) / 4096 → 10 ≤ bs.getD m 0 := by
    intro m hm
    have hmlen : m < bs.length := by rw [inv.bslen]; exact hm
    obtain ⟨-, hfree0, -⟩ := inv.bsmem _ (getD_mem bs 0 hmlen)
    dsimp only at hfree0
    by_contra hge
    have hS : isAllocated fs.bitmap (bs.getD m 0) = true ∧
        bs.getD m 0 ∉ usedBlocks ino :=
      ⟨hwf.reservedAllocated _ (by omega),
       fun hmem' => absurd (hwf.targetBlocksHigh _ hmem') (by omega)⟩
    rw [hSpres _ hS] at hfree0
    exact Bool.noConfusion hfree0
  refine ⟨_, hw, ?_⟩
  set ino2 : Inode := { ino with
    size := data.length
    blockCount := (data.length + 4095) / 4096
    directBlocks := s.db
    modified := now } with hino2
  set fsX : FS := { fs with
    bitmap := s.bitmap
    device := s.device
    inodeTable := tableSet fs.inodeTable i ino2 } with hfsX
  have htp : TablePreserved fs (sync fsX) := by
    intro n d htn hty
    have hni : n ≠ i := by
      intro he
      subst he
      rw [htab] at htn
      injection htn with hd
      rw [← hd] at hty
      rw [hreg] at hty
      exact absurd hty (by decide)
    refine ⟨?_, ?_⟩
    · rw [sync_inodeTable, hfsX]
      dsimp only
      rw [tableLookup_tableSet_ne _ _ hni]
      exact htn
    · intro b hb
      obtain ⟨hbten, hballoc, hbnot⟩ :=
        hwf.dirBlocksOk (n, d) (tableLookup_mem htn) hty b hb
      have hSb := hSpres b ⟨hballoc, hbnot⟩
      have hbbs : b ∉ bs := by
        intro hbmem
        obtain ⟨-, hf, -⟩ := inv.bsmem b hbmem
        dsimp only at hf
        rw [hSb] at hf
        exact Bool.noConfusion hf
      rw [sync_device_ne _ (by omega) (by omega) (by omega), hfsX]
      have hdo := inv.devOther b hbbs
      dsimp only at hdo
      exact hdo
  have hroot : (sync fsX).sb.rootInode = fs.sb.rootInode := rfl
  have hfind' : findInode (sync fsX) p = some i :=
    findInode_preserved hroot htp hfind
  have htabX : tableLookup (sync fsX).inodeTable i = some ino2 := by
    rw [sync_inodeTable, hfsX]
    dsimp only
    exact tableLookup_tableSet_self _ _ _
  have hty2 : ino2.fileType = 1 := by
    rw [hino2]
    exact hreg
  have hdb : ∀ m, m < (data.length + 4095) / 4096 →
      ino2.directBlocks.getD m 0 = bs.getD m 0 := by
    intro m hm
    rw [hino2]
    dsimp only
    exact inv.dbgetD m hm
  have hdev : ∀ m, m < (data.length + 4095) / 4096 →
      (sync fsX).device (bs.getD m 0) =
      (data.drop (4096 * m)).take (min (data.length - 4096 * m) 4096) ++
        List.replicate (4096 - min (data.length - 4096 * m) 4096) 0 := by
    intro m hm
    have h10 := hb10 m hm
    rw [sync_device_ne _ (by omega) (by omega) (by omega), hfsX]
    dsimp only
    exact inv.devChunk m hm
  exact readFile_spec (sync fsX) p data bs i ino2 hfind' htabX hty2
    (by rw [hino2]) (by rw [hino2]) hlen hdb hb10 hdev

/-- Witness for C1: on the fresh image with `/a` created, writing the two
bytes `"hi"` and reading them back round-trips. -/
theorem C1_witness :
    ∃ fs', writeFile fsA [47, 97] [104, 105] 9 = some fs' ∧
      readFile fs' [47, 97] = [104, 105] :=
  C1_write_then_read fsA [47, 97] [104, 105] 9 2 inoA (by decide) (by decide)
    (by decide) (by decide) (by decide)
    ⟨by decide, by decide, by decide, by decide, by decide⟩

/-- C3 counterexample: writing 49153 bytes (one over the 48 KiB direct-block
capacity) to `/a` on a fresh image succeeds and stores
`block_count = ceil(49153/4096) = 13 > DIRECT_BLOCKS`: the code never caps
`block_count` at 12, so the claimed invariant fails on a reachable state. -/
theorem C3_counterexample :
    ∃ fs', writeFile fsA [47, 97] (List.replicate 49153 0) 0 = some fs' ∧
      (tableLookup fs'.inodeTable 2).map Inode.blockCount = some 13 ∧
      DIRECT_BLOCKS < 13 := by
  obtain ⟨s, bs, hw, -⟩ := writeFile_success fsA [47, 97]
    (List.replicate 49153 0) 0 2 inoA (by decide) (by decide) (by decide)
    (by decide) (by decide)
    (by rw [List.length_replicate]
        have h12 : min ((49153 + 4095) / 4096) 12 = 12 := by decide
        rw [h12]
        decide)
  refine ⟨_, hw, ?_, by decide⟩
  rw [sync_inodeTable]
  try dsimp only
  rw [List.length_replicate]
  rw [tableLookup_tableSet_self]
  simp only [Option.map_some']

end FsSpec
